import Mathlib

/-!
# lazy_string: a copy-on-write, reference-counted string

Shallow embedding of `src/lazy_string.h` (`std_utils::basic_lazy_string<char, T>`).

Conventions of the embedding

* `size_type` is the unsigned 64-bit type, `difference_type` the signed 64-bit type;
  arithmetic on them is written on `Nat`/`Int` with explicit wrap-around.
* `value_type` is `char`, a signed 8-bit type (x86-64). Elements are stored as `Int`.
* The `std::shared_ptr` buffers live in an explicit heap of control blocks; every
  operation takes the heap and returns the new heap.
* Exceptions are `Except` errors. Reads and writes outside an array (undefined
  behaviour in C++) are reported as the error `undefined_behaviour`.
* `operator new[]` is assumed to succeed; a fresh array is filled with `0`
  (no operation reads an element of a fresh array before writing it). An array of
  `2 ^ 61` elements or more is beyond the address space, so an instance that a run
  holds has a capacity below `2 ^ 61` (`Allocatable`).
* `std::tolower` is the function of the platform's C library (glibc, "C" locale).
-/

namespace std_utils

/-! ## Machine integers -/

/-- Conversion of an integer to `size_type` (unsigned 64-bit, modular). -/
def toSize (i : Int) : Nat := (i % 2 ^ 64).toNat

/-- Conversion of a `size_type` value to `difference_type` (signed 64-bit). -/
def toDiff (n : Nat) : Int :=
  if n % 2 ^ 64 < 2 ^ 63 then ((n % 2 ^ 64 : Nat) : Int) else ((n % 2 ^ 64 : Nat) : Int) - 2 ^ 64

/-- Conversion of an integer to `value_type` (`char`: signed 8-bit, modular). -/
def toChar (i : Int) : Int := (i + 128) % 256 - 128

/-- Conversion of a `char` to `unsigned char`. -/
def toUChar (c : Int) : Int := c % 256

/-- The value is representable in `value_type`. -/
def IsChar (c : Int) : Prop := -128 ≤ c ∧ c ≤ 127

instance (c : Int) : Decidable (IsChar c) := by unfold IsChar; infer_instance

/-- The constant `sizeof(value_type)` for `char`. -/
def sizeof_value_type : Nat := 1

/-- The constant `mMaxCapacity = (size_type(-1)/sizeof(value_type) - 1)/4`. -/
def mMaxCapacity : Nat := ((2 ^ 64 - 1) / sizeof_value_type - 1) / 4

/-- The constant `mMinCapacity = 31/sizeof(value_type)`. -/
def mMinCapacity : Nat := 31 / sizeof_value_type

/-! ## Errors -/

/-- The two exceptions of the class, and undefined behaviour of the C++ code. -/
inductive Err where
  | out_of_range
  | size_limit_exceeded
  | undefined_behaviour
  deriving DecidableEq, Repr

/-! ## The heap of shared buffers -/

/-- What a control block of a `shared_ptr<value_type>` points to. -/
inductive Store where
  /-- The static array `mNull`, held with the no-op deleter `mEmptyDeleter`. -/
  | static_null
  /-- An array obtained from `new value_type[n]`, held with `default_delete`. -/
  | owned (data : List Int)
  /-- An array that has been deleted. -/
  | freed
  deriving DecidableEq, Repr

/-- A control block: the pointee and `use_count()`. -/
structure Block where
  store : Store
  useCount : Nat
  deriving DecidableEq, Repr

/-- The heap: the static array `mNull[1]`, the control blocks, the next fresh block. -/
structure Heap where
  mNull : List Int
  blocks : Nat → Block
  next : Nat

/-- Function update on the block table. -/
def setBlock (f : Nat → Block) (k : Nat) (b : Block) : Nat → Block :=
  fun j => if j = k then b else f j

/-- The heap at program start: `mNull` is zero-initialised, no control block exists. -/
def Heap.empty : Heap := ⟨[0], fun _ => ⟨Store.freed, 0⟩, 0⟩

/-- The array a control block points to (empty once deleted). -/
def Heap.buf (h : Heap) (k : Nat) : List Int :=
  match (h.blocks k).store with
  | Store.static_null => h.mNull
  | Store.owned d => d
  | Store.freed => []

/-- Replace the array a control block points to. -/
def Heap.setBuf (h : Heap) (k : Nat) (d : List Int) : Heap :=
  match (h.blocks k).store with
  | Store.static_null => { h with mNull := d }
  | Store.owned _ => { h with blocks := setBlock h.blocks k ⟨Store.owned d, (h.blocks k).useCount⟩ }
  | Store.freed => h

/-- A new control block with `use_count() == 1`. -/
def Heap.alloc (h : Heap) (st : Store) : Heap × Nat :=
  ({ h with blocks := setBlock h.blocks h.next ⟨st, 1⟩, next := h.next + 1 }, h.next)

/-- One more owner of a control block (copy of a `shared_ptr`). -/
def Heap.acquire (h : Heap) (k : Nat) : Heap :=
  { h with blocks := setBlock h.blocks k ⟨(h.blocks k).store, (h.blocks k).useCount + 1⟩ }

/-- What the deleter leaves behind: `default_delete` frees the array, the no-op
deleter `mEmptyDeleter` leaves `mNull` alone. -/
def Store.deleted (st : Store) : Store :=
  match st with
  | Store.owned _ => Store.freed
  | st => st

/-- One owner less (destruction of a `shared_ptr`); the last owner runs the deleter. -/
def Heap.release (h : Heap) (k : Nat) : Heap :=
  if (h.blocks k).useCount = 1 then
    { h with blocks := setBlock h.blocks k ⟨(h.blocks k).store.deleted, 0⟩ }
  else
    { h with blocks := setBlock h.blocks k ⟨(h.blocks k).store, (h.blocks k).useCount - 1⟩ }

/-- The store `p[i] = v` through the pointer of block `k`; the index is a signed offset. -/
def Heap.write (h : Heap) (k : Nat) (i : Int) (v : Int) : Except Err Heap :=
  if 0 ≤ i ∧ i.toNat < (h.buf k).length then
    Except.ok (h.setBuf k ((h.buf k).set i.toNat v))
  else Except.error Err.undefined_behaviour

/-- The load `p[i]` through the pointer of block `k`. -/
def Heap.read (h : Heap) (k : Nat) (i : Nat) : Except Err Int :=
  match (h.buf k)[i]? with
  | some v => Except.ok v
  | none => Except.error Err.undefined_behaviour

/-- The primitive `traits_type::copy(p + off, src, n)` into the array of block `k`. -/
def Heap.copy (h : Heap) (k : Nat) (off : Nat) (src : List Int) (n : Nat) : Except Err Heap :=
  if n ≤ src.length ∧ off + n ≤ (h.buf k).length then
    Except.ok (h.setBuf k ((h.buf k).take off ++ src.take n ++ (h.buf k).drop (off + n)))
  else Except.error Err.undefined_behaviour

/-- The primitive `traits_type::assign(p, n, c)` (fill) into the array of block `k`. -/
def Heap.fill (h : Heap) (k : Nat) (n : Nat) (c : Int) : Except Err Heap :=
  if n ≤ (h.buf k).length then
    Except.ok (h.setBuf k (List.replicate n c ++ (h.buf k).drop n))
  else Except.error Err.undefined_behaviour

/-! ## Traits policies -/

/-- Standard library `std::char_traits<char>::length` (`strlen`): the number of
elements before the first terminator of the memory `src` points to. -/
def char_traits_length (src : List Int) : Nat := (src.takeWhile (fun c => c ≠ 0)).length

/-- Standard library `std::char_traits<char>::lt`: comparison as `unsigned char`. -/
def char_traits_lt (c1 c2 : Int) : Prop := toUChar c1 < toUChar c2

instance (c1 c2 : Int) : Decidable (char_traits_lt c1 c2) := by
  unfold char_traits_lt; infer_instance

/-- Standard library `std::char_traits<char>::compare(s1, s2, n)`: lexicographic
comparison of the first `n` elements by `lt`; the standard fixes only the sign of the
result, which is rendered as `-1`, `0`, `1`. -/
def char_traits_compare : List Int → List Int → Nat → Int
  | a :: s1, b :: s2, n + 1 =>
    if char_traits_lt a b then -1
    else if char_traits_lt b a then 1
    else char_traits_compare s1 s2 n
  | _, _, _ => 0

/-- Standard library `std::tolower(int)` of the platform (glibc, "C" locale), applied to a
promoted `char`: the letters `'A'..'Z'` go to `'a'..'z'`; a negative `char` in
`-128..-2` is looked up as the `unsigned char` of the same bits and comes back as that
value, `c + 256`; `-1` (`EOF`) and all other values come back unchanged. -/
def tolower (c : Int) : Int :=
  if 65 ≤ c ∧ c ≤ 90 then c + 32
  else if -128 ≤ c ∧ c ≤ -2 then c + 256
  else c

/-- The policy function `ci_char_traits::eq`. -/
def ci_char_traits_eq (c1 c2 : Int) : Bool := tolower c1 == tolower c2

/-- The policy function `ci_char_traits::lt`. -/
def ci_char_traits_lt (c1 c2 : Int) : Bool := tolower c1 < tolower c2

/-- The policy function `ci_char_traits::compare(s1, s2, n)`. -/
def ci_char_traits_compare : List Int → List Int → Nat → Int
  | a :: s1, b :: s2, n + 1 =>
    if tolower a < tolower b then -1
    else if tolower a > tolower b then 1
    else ci_char_traits_compare s1 s2 n
  | _, _, _ => 0

/-! ## The class `basic_lazy_string` -/

/-- The data members `mBuf` (the control block of the `shared_ptr`), `mCapacity`, `mSize`. -/
structure basic_lazy_string where
  mBuf : Nat
  mCapacity : Nat
  mSize : Nat
  deriving DecidableEq, Repr

/-- A `const_pointer` argument: memory outside the heap of buffers, or the array of
a control block (the result of `c_str()`), read when it is dereferenced. -/
inductive Ptr where
  | raw (mem : List Int)
  | buffer (k : Nat)

/-- The elements a pointer points to, in the given heap. -/
def Ptr.deref (p : Ptr) (h : Heap) : List Int :=
  match p with
  | Ptr.raw mem => mem
  | Ptr.buffer k => h.buf k

/-- The constructor `basic_lazy_string()`. -/
def ctor_default (h : Heap) : Heap × basic_lazy_string :=
  ((h.alloc Store.static_null).1, ⟨(h.alloc Store.static_null).2, 0, 0⟩)

/-- The copy constructor (defaulted): one more owner of the same buffer. -/
def ctor_copy (h : Heap) (other : basic_lazy_string) : Heap × basic_lazy_string :=
  (h.acquire other.mBuf, other)

/-- The destructor (implicit): releases the buffer. -/
def dtor (h : Heap) (s : basic_lazy_string) : Heap := h.release s.mBuf

/-- The function `std_utils::swap(lhs, rhs)`: exchanges size, capacity and buffer. -/
def swap (lhs rhs : basic_lazy_string) : basic_lazy_string × basic_lazy_string :=
  (⟨rhs.mBuf, rhs.mCapacity, rhs.mSize⟩, ⟨lhs.mBuf, lhs.mCapacity, lhs.mSize⟩)

/-- The member `mGetBuf()`, as the array the buffer pointer points to. -/
def mGetBuf (h : Heap) (s : basic_lazy_string) : List Int := h.buf s.mBuf

/-- The member `c_str()`. -/
def c_str (s : basic_lazy_string) : Ptr := Ptr.buffer s.mBuf

/-- The member `empty()`. -/
def empty (s : basic_lazy_string) : Bool := s.mSize == 0

/-- The member `size()`. -/
def size (s : basic_lazy_string) : Nat := s.mSize

/-- The member `capacity()`. -/
def capacity (s : basic_lazy_string) : Nat := s.mCapacity

/-- The member `mIsShared()`: `!mBuf.unique()`. -/
def mIsShared (h : Heap) (s : basic_lazy_string) : Bool := (h.blocks s.mBuf).useCount != 1

/-- The member `mSetSize(newSize)`. -/
def mSetSize (h : Heap) (s : basic_lazy_string) (newSize : Nat) :
    Except Err (Heap × basic_lazy_string) :=
  match h.write s.mBuf newSize 0 with
  | Except.ok h1 => Except.ok (h1, { s with mSize := newSize })
  | Except.error e => Except.error e

/-- The private constructor `basic_lazy_string(size_type capacity)`. -/
def ctor_capacity (h : Heap) (capacity : Nat) : Except Err (Heap × basic_lazy_string) :=
  if capacity > mMaxCapacity then Except.error Err.size_limit_exceeded
  else
    let n := if capacity > mMinCapacity then capacity + 1 else mMinCapacity + 1
    let a := h.alloc (Store.owned (List.replicate n 0))
    mSetSize a.1 ⟨a.2, if capacity > mMinCapacity then capacity else mMinCapacity, 0⟩ 0

/-- The private constructor `basic_lazy_string(const basic_lazy_string& other, size_type capacity)`. -/
def ctor_copy_capacity (h : Heap) (other : basic_lazy_string) (capacity : Nat) :
    Except Err (Heap × basic_lazy_string) :=
  match ctor_capacity h (if capacity > other.mCapacity then capacity else other.mCapacity) with
  | Except.error e => Except.error e
  | Except.ok (h1, s) =>
    match h1.copy s.mBuf 0 (mGetBuf h1 other) other.mSize with
    | Except.error e => Except.error e
    | Except.ok h2 => mSetSize h2 s other.mSize

/-- The member `mReallocate(newCapacity)`; the temporary `copy` is destroyed at the end. -/
def mReallocate (h : Heap) (s : basic_lazy_string) (newCapacity : Nat) :
    Except Err (Heap × basic_lazy_string) :=
  let oldCapacity := s.mCapacity
  let newCapacity :=
    if newCapacity > oldCapacity ∧ newCapacity < (2 * oldCapacity) % 2 ^ 64
    then (2 * oldCapacity) % 2 ^ 64 else newCapacity
  match ctor_copy_capacity h s newCapacity with
  | Except.error e => Except.error e
  | Except.ok (h1, copy) => Except.ok (dtor h1 (swap s copy).2, (swap s copy).1)

/-- The constructor `basic_lazy_string(const_pointer src)`. -/
def ctor_cstr (h : Heap) (src : List Int) : Except Err (Heap × basic_lazy_string) :=
  let d := ctor_default h
  let size := char_traits_length src
  match ctor_capacity d.1 size with
  | Except.error e => Except.error e
  | Except.ok (h1, tmp) =>
    match h1.copy tmp.mBuf 0 src size with
    | Except.error e => Except.error e
    | Except.ok h2 =>
      match mSetSize h2 tmp size with
      | Except.error e => Except.error e
      | Except.ok (h3, tmp1) => Except.ok (dtor h3 (swap d.2 tmp1).2, (swap d.2 tmp1).1)

/-- The constructor `basic_lazy_string(const value_type c, size_type size)`. -/
def ctor_fill (h : Heap) (c : Int) (size : Nat) : Except Err (Heap × basic_lazy_string) :=
  match ctor_capacity h size with
  | Except.error e => Except.error e
  | Except.ok (h1, s) =>
    match h1.fill s.mBuf size c with
    | Except.error e => Except.error e
    | Except.ok h2 => mSetSize h2 s size

/-- The member `clear()`. -/
def clear (h : Heap) (s : basic_lazy_string) : Except Err (Heap × basic_lazy_string) :=
  if mIsShared h s then
    let d := ctor_default h
    Except.ok (dtor d.1 (swap s d.2).2, (swap s d.2).1)
  else mSetSize h s 0

/-- The member `reserve(newCap)`. -/
def reserve (h : Heap) (s : basic_lazy_string) (newCap : Nat) :
    Except Err (Heap × basic_lazy_string) :=
  if newCap > capacity s ∨ (mIsShared h s ∧ newCap ≠ 0) then mReallocate h s newCap
  else Except.ok (h, s)

/-- The member `mAppend(const value_type chr)`. The local `len` has type `value_type`. -/
def mAppend_chr (h : Heap) (s : basic_lazy_string) (chr : Int) :
    Except Err (Heap × basic_lazy_string) :=
  let len : Int := toChar (size s)
  match (if toSize len = capacity s ∨ mIsShared h s
         then mReallocate h s ((capacity s + 1) % 2 ^ 64) else Except.ok (h, s)) with
  | Except.error e => Except.error e
  | Except.ok (h1, s1) =>
    match h1.write s1.mBuf len chr with
    | Except.error e => Except.error e
    | Except.ok h2 => mSetSize h2 s1 (toSize (len + 1))

/-- The member `mAppend(const_pointer str, size_type addSize)`. The local `newSize`
has type `value_type`. -/
def mAppend (h : Heap) (s : basic_lazy_string) (str : Ptr) (addSize : Nat) :
    Except Err (Heap × basic_lazy_string) :=
  if addSize = 0 then Except.ok (h, s)
  else
    let newSize : Int := toChar (((size s + addSize) % 2 ^ 64 : Nat) : Int)
    match (if toSize newSize > capacity s ∨ mIsShared h s
           then mReallocate h s (toSize newSize) else Except.ok (h, s)) with
    | Except.error e => Except.error e
    | Except.ok (h1, s1) =>
      match h1.copy s1.mBuf (size s1) (str.deref h1) addSize with
      | Except.error e => Except.error e
      | Except.ok h2 => mSetSize h2 s1 (toSize newSize)

/-- The member `operator+=(const basic_lazy_string& other)`. -/
def operator_pluseq (h : Heap) (s other : basic_lazy_string) :
    Except Err (Heap × basic_lazy_string) :=
  mAppend h s (c_str other) (size other)

/-- The member `operator+=(const value_type chr)`. -/
def operator_pluseq_chr (h : Heap) (s : basic_lazy_string) (chr : Int) :
    Except Err (Heap × basic_lazy_string) :=
  mAppend_chr h s chr

/-- The member `operator+=(const pointer str)`. -/
def operator_pluseq_ptr (h : Heap) (s : basic_lazy_string) (str : List Int) :
    Except Err (Heap × basic_lazy_string) :=
  mAppend h s (Ptr.raw str) (char_traits_length str)

/-- The member `mCheckRange(pos, message)`. -/
def mCheckRange (s : basic_lazy_string) (pos : Nat) : Except Err Unit :=
  if pos ≥ s.mSize then Except.error Err.out_of_range else Except.ok ()

/-- The member `operator[](size_type idx) const`. -/
def operator_index_const (h : Heap) (s : basic_lazy_string) (idx : Nat) : Except Err Int :=
  match mCheckRange s idx with
  | Except.error e => Except.error e
  | Except.ok _ => h.read s.mBuf idx

/-- The nested type `char_proxy`: the position; the parent is passed to its members. -/
structure char_proxy where
  pos : Nat
  deriving DecidableEq, Repr

/-- The member `operator[](size_type idx)` (non-const): returns a proxy. -/
def operator_index (s : basic_lazy_string) (idx : Nat) : Except Err char_proxy :=
  match mCheckRange s idx with
  | Except.error e => Except.error e
  | Except.ok _ => Except.ok ⟨idx⟩

/-- The member `char_proxy::operator=(const value_type& val)`. -/
def char_proxy.assign (p : char_proxy) (h : Heap) (parent : basic_lazy_string) (val : Int) :
    Except Err (Heap × basic_lazy_string) :=
  match (if mIsShared h parent then mReallocate h parent (capacity parent)
         else Except.ok (h, parent)) with
  | Except.error e => Except.error e
  | Except.ok (h1, parent1) =>
    match h1.write parent1.mBuf p.pos val with
    | Except.error e => Except.error e
    | Except.ok h2 => Except.ok (h2, parent1)

/-- The member `char_proxy::operator value_type()`. -/
def char_proxy.value (p : char_proxy) (h : Heap) (parent : basic_lazy_string) : Except Err Int :=
  h.read parent.mBuf p.pos

/-- The statement `s[idx] = val`: non-const indexing, then assignment through the proxy. -/
def index_assign (h : Heap) (s : basic_lazy_string) (idx : Nat) (val : Int) :
    Except Err (Heap × basic_lazy_string) :=
  match operator_index s idx with
  | Except.error e => Except.error e
  | Except.ok p => p.assign h s val

/-- The static member `mCompare`, for the traits function `cmp`. -/
def mCompare (cmp : List Int → List Int → Nat → Int)
    (strLhs : List Int) (lenLhs : Nat) (strRhs : List Int) (lenRhs : Nat) : Int :=
  let res := cmp strLhs strRhs (min lenLhs lenRhs)
  if res = 0 then toDiff (toSize ((lenLhs : Int) - (lenRhs : Int))) else res

/-- The member `compare(const basic_lazy_string& other)`. -/
def compare (cmp : List Int → List Int → Nat → Int) (h : Heap)
    (s other : basic_lazy_string) : Int :=
  mCompare cmp ((c_str s).deref h) (size s) ((c_str other).deref h) (size other)

/-- The member `compare(const_pointer str)`. -/
def compare_ptr (cmp : List Int → List Int → Nat → Int) (h : Heap)
    (s : basic_lazy_string) (str : List Int) : Int :=
  mCompare cmp ((c_str s).deref h) (size s) str (char_traits_length str)

/-- The live elements of an instance: the first `size()` elements of its buffer. -/
def content (h : Heap) (s : basic_lazy_string) : List Int := (mGetBuf h s).take s.mSize

/-- The class invariant of an instance in a heap: its control block is alive, its
array has `capacity + 1` slots, `size ≤ capacity ≤ mMaxCapacity`, and the capacity is
`0` or at least `mMinCapacity`. -/
def Valid (h : Heap) (s : basic_lazy_string) : Prop :=
  s.mBuf < h.next ∧ 1 ≤ (h.blocks s.mBuf).useCount ∧
  (h.buf s.mBuf).length = s.mCapacity + 1 ∧ s.mSize ≤ s.mCapacity ∧
  s.mCapacity ≤ mMaxCapacity ∧ (s.mCapacity = 0 ∨ mMinCapacity ≤ s.mCapacity)

instance (h : Heap) (s : basic_lazy_string) : Decidable (Valid h s) := by
  unfold Valid; infer_instance

/-! ## The non-member operators -/

/-- The operator `operator<(const basic_lazy_string&, const basic_lazy_string&)`. -/
def operator_lt (cmp : List Int → List Int → Nat → Int) (h : Heap)
    (lhs rhs : basic_lazy_string) : Bool := decide (compare cmp h lhs rhs < 0)

/-- The operator `operator<(const_pointer, const basic_lazy_string&)`. -/
def operator_lt_ptr_lhs (cmp : List Int → List Int → Nat → Int) (h : Heap)
    (lhs : List Int) (rhs : basic_lazy_string) : Bool := decide (compare_ptr cmp h rhs lhs > 0)

/-- The operator `operator<(const basic_lazy_string&, const_pointer)`. -/
def operator_lt_ptr_rhs (cmp : List Int → List Int → Nat → Int) (h : Heap)
    (lhs : basic_lazy_string) (rhs : List Int) : Bool := decide (compare_ptr cmp h lhs rhs < 0)

/-- The operator `operator<=(const basic_lazy_string&, const basic_lazy_string&)`. -/
def operator_le (cmp : List Int → List Int → Nat → Int) (h : Heap)
    (lhs rhs : basic_lazy_string) : Bool := decide (compare cmp h lhs rhs ≤ 0)

/-- The operator `operator<=(const_pointer, const basic_lazy_string&)`. -/
def operator_le_ptr_lhs (cmp : List Int → List Int → Nat → Int) (h : Heap)
    (lhs : List Int) (rhs : basic_lazy_string) : Bool := decide (compare_ptr cmp h rhs lhs ≥ 0)

/-- The operator `operator<=(const basic_lazy_string&, const_pointer)`. -/
def operator_le_ptr_rhs (cmp : List Int → List Int → Nat → Int) (h : Heap)
    (lhs : basic_lazy_string) (rhs : List Int) : Bool := decide (compare_ptr cmp h lhs rhs ≤ 0)

/-- The operator `operator>(const basic_lazy_string&, const basic_lazy_string&)`. -/
def operator_gt (cmp : List Int → List Int → Nat → Int) (h : Heap)
    (lhs rhs : basic_lazy_string) : Bool := decide (compare cmp h lhs rhs > 0)

/-- The operator `operator>(const_pointer, const basic_lazy_string&)`. -/
def operator_gt_ptr_lhs (cmp : List Int → List Int → Nat → Int) (h : Heap)
    (lhs : List Int) (rhs : basic_lazy_string) : Bool := decide (compare_ptr cmp h rhs lhs < 0)

/-- The operator `operator>(const basic_lazy_string&, const_pointer)`. -/
def operator_gt_ptr_rhs (cmp : List Int → List Int → Nat → Int) (h : Heap)
    (lhs : basic_lazy_string) (rhs : List Int) : Bool := decide (compare_ptr cmp h lhs rhs > 0)

/-- The operator `operator>=(const basic_lazy_string&, const basic_lazy_string&)`. -/
def operator_ge (cmp : List Int → List Int → Nat → Int) (h : Heap)
    (lhs rhs : basic_lazy_string) : Bool := decide (compare cmp h lhs rhs ≥ 0)

/-- The operator `operator>=(const_pointer, const basic_lazy_string&)`. -/
def operator_ge_ptr_lhs (cmp : List Int → List Int → Nat → Int) (h : Heap)
    (lhs : List Int) (rhs : basic_lazy_string) : Bool := decide (compare_ptr cmp h rhs lhs ≤ 0)

/-- The operator `operator>=(const basic_lazy_string&, const_pointer)`. -/
def operator_ge_ptr_rhs (cmp : List Int → List Int → Nat → Int) (h : Heap)
    (lhs : basic_lazy_string) (rhs : List Int) : Bool := decide (compare_ptr cmp h lhs rhs ≥ 0)

/-- The operator `operator==(const basic_lazy_string&, const basic_lazy_string&)`. -/
def operator_eq (cmp : List Int → List Int → Nat → Int) (h : Heap)
    (lhs rhs : basic_lazy_string) : Bool := decide (compare cmp h lhs rhs = 0)

/-- The operator `operator==(const_pointer, const basic_lazy_string&)`. -/
def operator_eq_ptr_lhs (cmp : List Int → List Int → Nat → Int) (h : Heap)
    (lhs : List Int) (rhs : basic_lazy_string) : Bool := decide (compare_ptr cmp h rhs lhs = 0)

/-- The operator `operator==(const basic_lazy_string&, const_pointer)`. -/
def operator_eq_ptr_rhs (cmp : List Int → List Int → Nat → Int) (h : Heap)
    (lhs : basic_lazy_string) (rhs : List Int) : Bool := decide (compare_ptr cmp h lhs rhs = 0)

/-- The operator `operator!=(const basic_lazy_string&, const basic_lazy_string&)`. -/
def operator_ne (cmp : List Int → List Int → Nat → Int) (h : Heap)
    (lhs rhs : basic_lazy_string) : Bool := decide (compare cmp h lhs rhs ≠ 0)

/-- The operator `operator!=(const_pointer, const basic_lazy_string&)`. -/
def operator_ne_ptr_lhs (cmp : List Int → List Int → Nat → Int) (h : Heap)
    (lhs : List Int) (rhs : basic_lazy_string) : Bool := decide (compare_ptr cmp h rhs lhs ≠ 0)

/-- The operator `operator!=(const basic_lazy_string&, const_pointer)`. -/
def operator_ne_ptr_rhs (cmp : List Int → List Int → Nat → Int) (h : Heap)
    (lhs : basic_lazy_string) (rhs : List Int) : Bool := decide (compare_ptr cmp h lhs rhs ≠ 0)

/-- The operator `operator+(const basic_lazy_string&, const basic_lazy_string&)`; the
local `result` is returned without a copy. -/
def operator_plus (h : Heap) (lhs rhs : basic_lazy_string) :
    Except Err (Heap × basic_lazy_string) :=
  let d := ctor_default h
  match reserve d.1 d.2 ((size lhs + size rhs) % 2 ^ 64) with
  | Except.error e => Except.error e
  | Except.ok (h1, result) =>
    match operator_pluseq h1 result lhs with
    | Except.error e => Except.error e
    | Except.ok (h2, result1) => operator_pluseq h2 result1 rhs

/-- The statement `result += str` for a `const_pointer str`: the argument converts to a
temporary `basic_lazy_string` (the overload taking `const pointer` does not accept a
pointer to const), which is destroyed at the end of the statement. -/
def pluseq_const_pointer (h : Heap) (result : basic_lazy_string) (str : List Int) :
    Except Err (Heap × basic_lazy_string) :=
  match ctor_cstr h str with
  | Except.error e => Except.error e
  | Except.ok (h1, tmp) =>
    match operator_pluseq h1 result tmp with
    | Except.error e => Except.error e
    | Except.ok (h2, result1) => Except.ok (dtor h2 tmp, result1)

/-- The operator `operator+(const_pointer, const basic_lazy_string&)`. -/
def operator_plus_ptr_lhs (h : Heap) (lhs : List Int) (rhs : basic_lazy_string) :
    Except Err (Heap × basic_lazy_string) :=
  let d := ctor_default h
  match reserve d.1 d.2 ((char_traits_length lhs + size rhs) % 2 ^ 64) with
  | Except.error e => Except.error e
  | Except.ok (h1, result) =>
    match pluseq_const_pointer h1 result lhs with
    | Except.error e => Except.error e
    | Except.ok (h2, result1) => operator_pluseq h2 result1 rhs

/-- The operator `operator+(const basic_lazy_string&, const_pointer)`. -/
def operator_plus_ptr_rhs (h : Heap) (lhs : basic_lazy_string) (rhs : List Int) :
    Except Err (Heap × basic_lazy_string) :=
  let d := ctor_default h
  match reserve d.1 d.2 ((size lhs + char_traits_length rhs) % 2 ^ 64) with
  | Except.error e => Except.error e
  | Except.ok (h1, result) =>
    match operator_pluseq h1 result lhs with
    | Except.error e => Except.error e
    | Except.ok (h2, result1) => pluseq_const_pointer h2 result1 rhs

/-- The operator `operator+(const value_type, const basic_lazy_string&)`. -/
def operator_plus_chr_lhs (h : Heap) (lhs : Int) (rhs : basic_lazy_string) :
    Except Err (Heap × basic_lazy_string) :=
  let d := ctor_default h
  match reserve d.1 d.2 ((1 + size rhs) % 2 ^ 64) with
  | Except.error e => Except.error e
  | Except.ok (h1, result) =>
    match operator_pluseq_chr h1 result lhs with
    | Except.error e => Except.error e
    | Except.ok (h2, result1) => operator_pluseq h2 result1 rhs

/-- The operator `operator+(const basic_lazy_string&, const value_type)`. -/
def operator_plus_chr_rhs (h : Heap) (lhs : basic_lazy_string) (rhs : Int) :
    Except Err (Heap × basic_lazy_string) :=
  let d := ctor_default h
  match reserve d.1 d.2 ((size lhs + 1) % 2 ^ 64) with
  | Except.error e => Except.error e
  | Except.ok (h1, result) =>
    match operator_pluseq h1 result lhs with
    | Except.error e => Except.error e
    | Except.ok (h2, result1) => operator_pluseq_chr h2 result1 rhs

/-! ## Auxiliary definitions for the statements -/

/-- The heap `h1` is `h` with block `k` replaced by the array `d` with count `c`. -/
def Upd (h h1 : Heap) (k : Nat) (d : List Int) (c : Nat) : Prop :=
  h1.mNull = h.mNull ∧ h1.next = h.next ∧ h1.blocks k = ⟨Store.owned d, c⟩ ∧
  ∀ j, j ≠ k → h1.blocks j = h.blocks j

/-- The capacity the private constructor gives for a request `c`. -/
def allocCap (c : Nat) : Nat := if c > mMinCapacity then c else mMinCapacity

/-- The target capacity `mReallocate` passes on for a request `n` at capacity `cap`. -/
def growTarget (cap n : Nat) : Nat :=
  if n > cap ∧ n < (2 * cap) % 2 ^ 64 then (2 * cap) % 2 ^ 64 else n

/-- The heap `h1` is `h` with one more control block, `h.next`, holding `d` once. -/
def Fresh (h h1 : Heap) (d : List Int) : Prop :=
  h1.mNull = h.mNull ∧ h1.next = h.next + 1 ∧ h1.blocks h.next = ⟨Store.owned d, 1⟩ ∧
  ∀ j, j ≠ h.next → h1.blocks j = h.blocks j

/-- The heap `h1` is `h` after `mReallocate` on an instance holding block `k`: the fresh
block `h.next` holds `d` once, and block `k` has one owner less. -/
def Realloc (h h1 : Heap) (k : Nat) (d : List Int) : Prop :=
  h1.mNull = h.mNull ∧ h1.next = h.next + 1 ∧ h1.blocks h.next = ⟨Store.owned d, 1⟩ ∧
  h1.blocks k = (h.release k).blocks k ∧
  ∀ j, j ≠ h.next → j ≠ k → h1.blocks j = h.blocks j

/-- The capacity of an instance after `mReallocate(n)`. -/
def newCapacity (s : basic_lazy_string) (n : Nat) : Nat :=
  allocCap (if growTarget s.mCapacity n > s.mCapacity then growTarget s.mCapacity n
            else s.mCapacity)

/-- The state after `lazy_string foo = "12345"; lazy_string bar = foo;`: the heap and
the instance (`foo` and `bar` have the same members). -/
def ex_shared : Heap × basic_lazy_string :=
  match ctor_cstr Heap.empty [49, 50, 51, 52, 53, 0] with
  | Except.ok (h, foo) => ctor_copy h foo
  | Except.error _ => (Heap.empty, ⟨0, 0, 0⟩)

/-- What an append on a shared instance leaves of another owner `t` of the buffer. -/
def AppendFrame (h : Heap) (t : basic_lazy_string) (added : Nat)
    (r : Heap × basic_lazy_string) : Prop :=
  Valid r.1 t ∧ mGetBuf r.1 t = mGetBuf h t ∧ content r.1 t = content h t ∧
  (added ≠ 0 → r.2.mBuf ≠ t.mBuf ∧ mIsShared r.1 r.2 = false)

/-- The content of the resulting instance of an operation, when it completes. -/
def contentAfter (r : Except Err (Heap × basic_lazy_string)) : Option (List Int) :=
  match r with
  | Except.ok p => some (content p.1 p.2)
  | Except.error _ => none

/-- The content of a bystander `t` in the resulting heap of an operation, when it
completes. -/
def contentOfAfter (r : Except Err (Heap × basic_lazy_string)) (t : basic_lazy_string) :
    Option (List Int) :=
  match r with
  | Except.ok p => some (content p.1 t)
  | Except.error _ => none

/-- The state after `lazy_string str("I am cstr!")` at program start. -/
def ex_cstr : Except Err (Heap × basic_lazy_string) :=
  ctor_cstr Heap.empty [73, 32, 97, 109, 32, 99, 115, 116, 114, 33, 0]

/-- The error of an operation that does not complete. -/
def errorOf (r : Except Err (Heap × basic_lazy_string)) : Option Err :=
  match r with
  | Except.ok _ => none
  | Except.error e => some e

/-- The size of the resulting instance of an operation, when it completes. -/
def sizeAfter (r : Except Err (Heap × basic_lazy_string)) : Option Nat :=
  match r with
  | Except.ok p => some (size p.2)
  | Except.error _ => none

/-- The statements `s += c` for each element `c` of a sequence, in order. -/
def append_each (h : Heap) (s : basic_lazy_string) :
    List Int → Except Err (Heap × basic_lazy_string)
  | [] => Except.ok (h, s)
  | c :: cs =>
    match operator_pluseq_chr h s c with
    | Except.error e => Except.error e
    | Except.ok (h1, s1) => append_each h1 s1 cs

/-- The rest of a program after an operation that must complete. -/
def andThen (r : Except Err (Heap × basic_lazy_string))
    (f : Heap → basic_lazy_string → Except Err (Heap × basic_lazy_string)) :
    Except Err (Heap × basic_lazy_string) :=
  match r with
  | Except.ok (h, s) => f h s
  | Except.error e => Except.error e

/-- The program `lazy_string s; for (c : cs) s += c;` at program start. -/
def ex_append_each (cs : List Int) : Except Err (Heap × basic_lazy_string) :=
  append_each (ctor_default Heap.empty).1 (ctor_default Heap.empty).2 cs

/-- The program `lazy_string a('a', n); lazy_string b("b"); a + b` at program start. -/
def ex_plus (n : Nat) : Except Err (Heap × basic_lazy_string) :=
  andThen (ctor_fill Heap.empty 97 n) (fun h a =>
    andThen (ctor_cstr h [98, 0]) (fun h1 b => operator_plus h1 a b))

/-- The program `lazy_string a('a', n); lazy_string b("b"); lazy_string c("c");
(a + b) + c` at program start. -/
def ex_assoc_left (n : Nat) : Except Err (Heap × basic_lazy_string) :=
  andThen (ctor_fill Heap.empty 97 n) (fun h a =>
    andThen (ctor_cstr h [98, 0]) (fun h1 b =>
      andThen (ctor_cstr h1 [99, 0]) (fun h2 c =>
        andThen (operator_plus h2 a b) (fun h3 ab => operator_plus h3 ab c))))

/-- The program `lazy_string a('a', n); lazy_string b("b"); lazy_string c("c");
a + (b + c)` at program start. -/
def ex_assoc_right (n : Nat) : Except Err (Heap × basic_lazy_string) :=
  andThen (ctor_fill Heap.empty 97 n) (fun h a =>
    andThen (ctor_cstr h [98, 0]) (fun h1 b =>
      andThen (ctor_cstr h1 [99, 0]) (fun h2 c =>
        andThen (operator_plus h2 b c) (fun h3 bc => operator_plus h3 a bc))))

/-- Comparison of the first `n` elements by a key: the common shape of
`char_traits_compare` (key `toUChar`) and `ci_char_traits_compare` (key `tolower`). -/
def keyCompare (k : Int → Int) : List Int → List Int → Nat → Int
  | a :: s1, b :: s2, n + 1 =>
    if k a < k b then -1
    else if k b < k a then 1
    else keyCompare k s1 s2 n
  | _, _, _ => 0

/-- The result of `mCompare` on two contents, for a key comparison. -/
def keySign (k : Int → Int) (la lb : List Int) : Int :=
  if keyCompare k la lb (min la.length lb.length) = 0
  then (la.length : Int) - (lb.length : Int)
  else keyCompare k la lb (min la.length lb.length)

/-- The lexicographic order in the words of the specification: `la` precedes `lb` when
at the first position where they differ the element of `la` is smaller, or when `la` is
a proper initial segment of `lb`. -/
def lex_precedes (lt : Int → Int → Bool) : List Int → List Int → Bool
  | [], [] => false
  | [], _ :: _ => true
  | _ :: _, [] => false
  | a :: la, b :: lb => if a = b then lex_precedes lt la lb else lt a b

/-- The order of `char` elements of the default policy, `char_traits::lt`. -/
def ltUChar (a b : Int) : Bool := decide (char_traits_lt a b)

/-- The order of promoted `char` values, `<` on `int`. -/
def ltInt (a b : Int) : Bool := decide (a < b)

/-- The state after `lazy_string a("fgh"); lazy_string b("fgh1");` at program start: the
heap, `a` and `b`. -/
def ex_pair : Heap × basic_lazy_string × basic_lazy_string :=
  match ctor_cstr Heap.empty [102, 103, 104, 0] with
  | Except.error _ => (Heap.empty, ⟨0, 0, 0⟩, ⟨0, 0, 0⟩)
  | Except.ok (h, a) =>
    match ctor_cstr h [102, 103, 104, 49, 0] with
    | Except.error _ => (Heap.empty, ⟨0, 0, 0⟩, ⟨0, 0, 0⟩)
    | Except.ok (h1, b) => (h1, a, b)

/-- The state after `lazy_istring a("FOO"); lazy_istring b("foo");` at program start: the
heap, `a` and `b`. -/
def ex_ci_pair : Heap × basic_lazy_string × basic_lazy_string :=
  match ctor_cstr Heap.empty [70, 79, 79, 0] with
  | Except.error _ => (Heap.empty, ⟨0, 0, 0⟩, ⟨0, 0, 0⟩)
  | Except.ok (h, a) =>
    match ctor_cstr h [102, 111, 111, 0] with
    | Except.error _ => (Heap.empty, ⟨0, 0, 0⟩, ⟨0, 0, 0⟩)
    | Except.ok (h1, b) => (h1, a, b)

/-- The static array `mNull[1]` holds its zero-initialised element. -/
def NullOk (h : Heap) : Prop := h.mNull = [0]

instance (h : Heap) : Decidable (NullOk h) := by unfold NullOk; infer_instance

/-- The heap of an operation's result, with the starting heap for one that throws. -/
def heapAfter (h : Heap) (r : Except Err (Heap × basic_lazy_string)) : Heap :=
  match r with
  | Except.ok p => p.1
  | Except.error _ => h

/-- The capacity of the resulting instance of an operation, when it completes. -/
def capacityAfter (r : Except Err (Heap × basic_lazy_string)) : Option Nat :=
  match r with
  | Except.ok p => some (capacity p.2)
  | Except.error _ => none

/-- The state after `lazy_string foo = "12345";` at program start (an unshared instance). -/
def ex_single : Heap × basic_lazy_string :=
  match ctor_cstr Heap.empty [49, 50, 51, 52, 53, 0] with
  | Except.ok p => p
  | Except.error _ => (Heap.empty, ⟨0, 0, 0⟩)

/-- The move constructor `basic_lazy_string(basic_lazy_string&& other)`: the heap, the
new instance and `other` after the call. -/
def ctor_move (h : Heap) (other : basic_lazy_string) :
    Heap × basic_lazy_string × basic_lazy_string :=
  ((ctor_default h).1, (swap (ctor_default h).2 other).1, (swap (ctor_default h).2 other).2)

/-- The move assignment `operator=(basic_lazy_string&& other)`: the heap, `*this` and
`other` after the call. -/
def operator_assign_move (h : Heap) (this other : basic_lazy_string) :
    Heap × basic_lazy_string × basic_lazy_string :=
  (h, (swap this other).1, (swap this other).2)

/-- The member `swap(basic_lazy_string& other)`: `*this` and `other` after the call. -/
def swap_member (this other : basic_lazy_string) : basic_lazy_string × basic_lazy_string :=
  swap this other

/-- The state after `lazy_string foo = "foo"; lazy_string bar = "bar";` at program
start: the heap, `foo` and `bar`. -/
def ex_foo_bar : Heap × basic_lazy_string × basic_lazy_string :=
  match ctor_cstr Heap.empty [102, 111, 111, 0] with
  | Except.error _ => (Heap.empty, ⟨0, 0, 0⟩, ⟨0, 0, 0⟩)
  | Except.ok (h, a) =>
    match ctor_cstr h [98, 97, 114, 0] with
    | Except.error _ => (Heap.empty, ⟨0, 0, 0⟩, ⟨0, 0, 0⟩)
    | Except.ok (h1, b) => (h1, a, b)

/-- Whether the resulting instance of an operation is shared, when it completes. -/
def sharedAfter (r : Except Err (Heap × basic_lazy_string)) : Option Bool :=
  match r with
  | Except.ok p => some (mIsShared p.1 p.2)
  | Except.error _ => none

/-- An array of `2 ^ 61 + 1` elements. -/
def ex_huge_array : List Int := List.replicate (2 ^ 61 + 1) 0

/-- The one control block of `ex_huge`: block 0 owns the array once. -/
def ex_huge_blocks (k : Nat) : Block :=
  if k = 0 then ⟨Store.owned ex_huge_array, 1⟩ else ⟨Store.freed, 0⟩

/-- A heap with one unshared, empty instance of capacity `2 ^ 61`, the capacity that
`s.reserve(2 ^ 61)` gives a default-constructed `s`: the heap and the instance. -/
def ex_huge : Heap × basic_lazy_string :=
  (⟨[0], ex_huge_blocks, 1⟩, ⟨0, 2 ^ 61, 0⟩)

/-- The statement `value_type v = s[idx];` on a const instance, with the heap and the
members after it: the const `operator[]` performs no store. -/
def index_read_const (h : Heap) (s : basic_lazy_string) (idx : Nat) :
    Except Err (Heap × basic_lazy_string × Int) :=
  match operator_index_const h s idx with
  | Except.error e => Except.error e
  | Except.ok v => Except.ok (h, s, v)

/-- The statement `value_type v = s[idx];` on a non-const instance, with the heap and
the instance after it: `operator[]` builds the proxy and `operator value_type()` loads
through it; neither performs a store. -/
def index_read (h : Heap) (s : basic_lazy_string) (idx : Nat) :
    Except Err (Heap × basic_lazy_string × Int) :=
  match operator_index s idx with
  | Except.error e => Except.error e
  | Except.ok p =>
    match p.value h s with
    | Except.error e => Except.error e
    | Except.ok v => Except.ok (h, s, v)

/-- The terminator invariant: the buffer slot at index `size()` holds `value_type()`. -/
def Terminated (h : Heap) (s : basic_lazy_string) : Prop :=
  (mGetBuf h s)[s.mSize]? = some 0

instance (h : Heap) (s : basic_lazy_string) : Decidable (Terminated h s) := by
  unfold Terminated; infer_instance

/-- The elements `c_str()` shows when read up to the first terminator. -/
def c_str_view (h : Heap) (s : basic_lazy_string) : List Int :=
  (mGetBuf h s).takeWhile (fun c => c ≠ 0)

/-- Whether the terminator invariant holds for the resulting instance of an operation,
when it completes. -/
def terminatedAfter (r : Except Err (Heap × basic_lazy_string)) : Option Bool :=
  match r with
  | Except.ok p => some (decide (Terminated p.1 p.2))
  | Except.error _ => none

/-- The number of slots of the buffer of the resulting instance of an operation, when it
completes. -/
def slotsAfter (r : Except Err (Heap × basic_lazy_string)) : Option Nat :=
  match r with
  | Except.ok p => some (mGetBuf p.1 p.2).length
  | Except.error _ => none

/-- What `c_str()` shows for the resulting instance of an operation, when it completes. -/
def c_strAfter (r : Except Err (Heap × basic_lazy_string)) : Option (List Int) :=
  match r with
  | Except.ok p => some (c_str_view p.1 p.2)
  | Except.error _ => none

/-- The program `lazy_string s('a', n);` followed by `k` times `s += 'b';`, at program
start. -/
def ex_fill_append (n k : Nat) : Except Err (Heap × basic_lazy_string) :=
  andThen (ctor_fill Heap.empty 97 n) (fun h s => append_each h s (List.replicate k 98))

/-- The state after `lazy_string s('a', 31);` at program start: an unshared, full
string of capacity 31. -/
def ex_full : Heap × basic_lazy_string :=
  match ctor_fill Heap.empty 97 31 with
  | Except.ok p => p
  | Except.error _ => (Heap.empty, ⟨0, 0, 0⟩)

/-- The state after `lazy_string s('a', 128); lazy_string t = s;` at program start: the
heap and the instance (`s` and `t` have the same members). -/
def ex_shared_128 : Heap × basic_lazy_string :=
  match ctor_fill Heap.empty 97 128 with
  | Except.ok (h, s) => ctor_copy h s
  | Except.error _ => (Heap.empty, ⟨0, 0, 0⟩)

/-- The state after `lazy_istring a("foo"); lazy_istring b("\xc8oo");` at program start:
the heap, `a` and `b`. The first element of `b` is the `char` of value `-56`. -/
def ex_ci_high : Heap × basic_lazy_string × basic_lazy_string :=
  match ctor_cstr Heap.empty [102, 111, 111, 0] with
  | Except.error _ => (Heap.empty, ⟨0, 0, 0⟩, ⟨0, 0, 0⟩)
  | Except.ok (h, a) =>
    match ctor_cstr h [-56, 111, 111, 0] with
    | Except.error _ => (Heap.empty, ⟨0, 0, 0⟩, ⟨0, 0, 0⟩)
    | Except.ok (h1, b) => (h1, a, b)

/-- The buffer of `s` is one that a run can hold: its capacity is below `2 ^ 61`
elements. (An array of `2 ^ 61 + 1` elements does not fit the address space:
`new value_type[2 ^ 61 + 1]` throws `std::bad_alloc`.) -/
def Allocatable (s : basic_lazy_string) : Prop := s.mCapacity < 2 ^ 61

instance (s : basic_lazy_string) : Decidable (Allocatable s) := by
  unfold Allocatable; infer_instance

/-! # Theorems -/

/-! ## Lists and the heap -/

theorem buf_of_block {h : Heap} {k : Nat} {d : List Int} {c : Nat}
    (hk : h.blocks k = ⟨Store.owned d, c⟩) : h.buf k = d := by
  simp [Heap.buf, hk]

theorem buf_congr {h h1 : Heap} {k : Nat} (hn : h1.mNull = h.mNull)
    (hb : h1.blocks k = h.blocks k) : h1.buf k = h.buf k := by
  simp [Heap.buf, hn, hb]

theorem setBuf_owned {h : Heap} {k : Nat} {d : List Int} {c : Nat}
    (hk : h.blocks k = ⟨Store.owned d, c⟩) (d1 : List Int) :
    Upd h (h.setBuf k d1) k d1 c := by
  simp [Upd, Heap.setBuf, hk, setBlock]
  intro j hj
  simp [hj]

theorem write_owned {h : Heap} {k : Nat} {d : List Int} {c : Nat}
    (hk : h.blocks k = ⟨Store.owned d, c⟩) (i : Nat) (v : Int) (hi : i < d.length) :
    ∃ h1, h.write k (i : Int) v = Except.ok h1 ∧ Upd h h1 k (d.set i v) c := by
  refine ⟨h.setBuf k (d.set i v), ?_, setBuf_owned hk _⟩
  simp [Heap.write, buf_of_block hk, hi]

theorem copy_owned {h : Heap} {k : Nat} {d : List Int} {c : Nat}
    (hk : h.blocks k = ⟨Store.owned d, c⟩) (off : Nat) (src : List Int) (n : Nat)
    (hn : n ≤ src.length) (ho : off + n ≤ d.length) :
    ∃ h1, h.copy k off src n = Except.ok h1 ∧
      Upd h h1 k (d.take off ++ src.take n ++ d.drop (off + n)) c := by
  refine ⟨h.setBuf k (d.take off ++ src.take n ++ d.drop (off + n)), ?_, setBuf_owned hk _⟩
  simp [Heap.copy, buf_of_block hk, hn, ho]

theorem mSetSize_owned {h : Heap} {s : basic_lazy_string} {d : List Int} {c : Nat}
    (hk : h.blocks s.mBuf = ⟨Store.owned d, c⟩) (n : Nat) (hn : n < d.length) :
    ∃ h1, mSetSize h s n = Except.ok (h1, ⟨s.mBuf, s.mCapacity, n⟩) ∧
      Upd h h1 s.mBuf (d.set n 0) c := by
  obtain ⟨h1, e, u⟩ := write_owned hk n 0 hn
  exact ⟨h1, by simp [mSetSize, e], u⟩

theorem take_set_of_le {α : Type} (l : List α) (n i : Nat) (v : α) (h : n ≤ i) :
    (l.set i v).take n = l.take n := by
  rw [List.set_take]
  exact List.set_eq_of_length_le (by simp; omega)

theorem fresh_upd {h h1 h2 : Heap} {d d2 : List Int} (f : Fresh h h1 d)
    (u : Upd h1 h2 h.next d2 1) : Fresh h h2 d2 := by
  obtain ⟨f1, f2, _, f4⟩ := f
  obtain ⟨u1, u2, u3, u4⟩ := u
  exact ⟨u1.trans f1, u2.trans f2, u3, fun j hj => (u4 j hj).trans (f4 j hj)⟩

theorem fresh_buf_old {h h1 : Heap} {d : List Int} (f : Fresh h h1 d) {k : Nat}
    (hk : k < h.next) : h1.buf k = h.buf k :=
  buf_congr f.1 (f.2.2.2 k (Nat.ne_of_lt hk))

theorem alloc_fresh (h : Heap) (d : List Int) : Fresh h (h.alloc (Store.owned d)).1 d := by
  simp [Fresh, Heap.alloc, setBlock]
  intro j hj
  simp [hj]

theorem ctor_capacity_ok (h : Heap) (c : Nat) (hc : c ≤ mMaxCapacity) :
    ∃ h1, ctor_capacity h c = Except.ok (h1, ⟨h.next, allocCap c, 0⟩) ∧
      Fresh h h1 (List.replicate (allocCap c + 1) 0) := by
  have f := alloc_fresh h (List.replicate (allocCap c + 1) 0)
  have hk : (h.alloc (Store.owned (List.replicate (allocCap c + 1) 0))).1.blocks
      (⟨h.next, allocCap c, 0⟩ : basic_lazy_string).mBuf
      = ⟨Store.owned (List.replicate (allocCap c + 1) 0), 1⟩ := f.2.2.1
  obtain ⟨h1, e, u⟩ := mSetSize_owned hk 0 (by simp)
  refine ⟨h1, ?_, ?_⟩
  · have hn : ¬ c > mMaxCapacity := Nat.not_lt.mpr hc
    have ea : (if c > mMinCapacity then c + 1 else mMinCapacity + 1) = allocCap c + 1 := by
      unfold allocCap; split <;> rfl
    have eb : (if c > mMinCapacity then c else mMinCapacity) = allocCap c := rfl
    simp only [ctor_capacity, hn, if_false, ea, eb]
    exact e
  · have := fresh_upd f u
    simpa [List.replicate_succ] using this

theorem ctor_copy_capacity_ok (h : Heap) (other : basic_lazy_string) (c : Nat)
    (hv : Valid h other) (hc : c ≤ mMaxCapacity) :
    ∃ h1 d, ctor_copy_capacity h other c = Except.ok
        (h1, ⟨h.next, allocCap (if c > other.mCapacity then c else other.mCapacity),
          other.mSize⟩) ∧
      Fresh h h1 d ∧
      d.length = allocCap (if c > other.mCapacity then c else other.mCapacity) + 1 ∧
      d.take other.mSize = content h other ∧ d[other.mSize]? = some 0 := by
  obtain ⟨hb, _, hlen, hsz, hmax, _⟩ := hv
  set c1 := (if c > other.mCapacity then c else other.mCapacity) with hc1
  have hc1max : c1 ≤ mMaxCapacity := by rw [hc1]; split <;> assumption
  have hge : other.mCapacity ≤ allocCap c1 := by
    unfold allocCap; rw [hc1]; split <;> split <;> omega
  obtain ⟨h1, e1, f1⟩ := ctor_capacity_ok h c1 hc1max
  have hbuf : mGetBuf h1 other = h.buf other.mBuf := fresh_buf_old f1 hb
  obtain ⟨h2, e2, u2⟩ := copy_owned f1.2.2.1 0 (h.buf other.mBuf) other.mSize
    (by omega) (by simp; omega)
  have f2 := fresh_upd f1 u2
  obtain ⟨h3, e3, u3⟩ := mSetSize_owned
    (s := ⟨h.next, allocCap c1, 0⟩) (h := h2) f2.2.2.1 other.mSize (by simp; omega)
  have f3 := fresh_upd f2 u3
  refine ⟨h3, _, ?_, f3, ?_, ?_, ?_⟩
  · simp only [ctor_copy_capacity, ← hc1, e1, hbuf, e2]
    exact e3
  · simp; omega
  · have hl : (List.take other.mSize (h.buf other.mBuf)).length = other.mSize := by
      simp; omega
    simp only [List.take_zero, List.nil_append, Nat.zero_add, content, mGetBuf]
    rw [take_set_of_le _ _ _ _ (Nat.le_refl _), List.take_append_of_le_length (by omega)]
    rw [List.take_of_length_le (by omega)]
  · have hl : (List.take other.mSize (h.buf other.mBuf)).length = other.mSize := by
      simp; omega
    simp only [List.take_zero, List.nil_append, Nat.zero_add]
    rw [List.getElem?_set_self (by simp; omega)]

theorem upd_buf_other {h h1 : Heap} {k : Nat} {d : List Int} {c : Nat} (u : Upd h h1 k d c)
    {j : Nat} (hj : j ≠ k) : h1.buf j = h.buf j :=
  buf_congr u.1 (u.2.2.2 j hj)

theorem upd_buf_same {h h1 : Heap} {k : Nat} {d : List Int} {c : Nat} (u : Upd h h1 k d c) :
    h1.buf k = d :=
  buf_of_block u.2.2.1

theorem release_blocks (h : Heap) (k j : Nat) :
    (h.release k).blocks j =
      if j = k then
        (if (h.blocks k).useCount = 1 then ⟨(h.blocks k).store.deleted, 0⟩
         else ⟨(h.blocks k).store, (h.blocks k).useCount - 1⟩)
      else h.blocks j := by
  unfold Heap.release
  split <;> simp [setBlock]

theorem release_mNull (h : Heap) (k : Nat) : (h.release k).mNull = h.mNull := by
  unfold Heap.release; split <;> rfl

theorem release_next (h : Heap) (k : Nat) : (h.release k).next = h.next := by
  unfold Heap.release; split <;> rfl

theorem fresh_release {h h1 : Heap} {d : List Int} (f : Fresh h h1 d) {k : Nat}
    (hk : k < h.next) : Realloc h (h1.release k) k d := by
  obtain ⟨f1, f2, f3, f4⟩ := f
  have hne : k ≠ h.next := Nat.ne_of_lt hk
  refine ⟨by rw [release_mNull, f1], by rw [release_next, f2], ?_, ?_, ?_⟩
  · rw [release_blocks, if_neg (Ne.symm hne), f3]
  · rw [release_blocks, release_blocks, if_pos rfl, if_pos rfl, f4 k hne]
  · intro j hj hjk
    rw [release_blocks, if_neg hjk, f4 j hj]

/-- A buffer that is not the reallocated one, or that has another owner, is untouched. -/
theorem realloc_buf_old {h h1 : Heap} {k : Nat} {d : List Int} (r : Realloc h h1 k d)
    {j : Nat} (hj : j < h.next) (hs : j ≠ k ∨ (h.blocks k).useCount ≠ 1) :
    h1.buf j = h.buf j := by
  obtain ⟨r1, _, _, r4, r5⟩ := r
  by_cases hjk : j = k
  · subst hjk
    have hc : (h.blocks j).useCount ≠ 1 := by
      rcases hs with hs | hs
      · exact absurd rfl hs
      · exact hs
    rw [release_blocks, if_pos rfl, if_neg hc] at r4
    simp [Heap.buf, r1, r4]
  · exact buf_congr r1 (r5 j (Nat.ne_of_lt hj) hjk)

theorem realloc_upd {h h1 h2 : Heap} {k : Nat} {d d2 : List Int} (r : Realloc h h1 k d)
    (hk : k < h.next) (u : Upd h1 h2 h.next d2 1) : Realloc h h2 k d2 := by
  obtain ⟨r1, r2, _, r4, r5⟩ := r
  obtain ⟨u1, u2, u3, u4⟩ := u
  exact ⟨u1.trans r1, u2.trans r2, u3, (u4 k (Nat.ne_of_lt hk)).trans r4,
    fun j hj hjk => (u4 j hj).trans (r5 j hj hjk)⟩

theorem mReallocate_ok (h : Heap) (s : basic_lazy_string) (n : Nat) (hv : Valid h s)
    (hn : growTarget s.mCapacity n ≤ mMaxCapacity) :
    ∃ h1 d, mReallocate h s n = Except.ok (h1, ⟨h.next, newCapacity s n, s.mSize⟩) ∧
      Realloc h h1 s.mBuf d ∧ d.length = newCapacity s n + 1 ∧
      d.take s.mSize = content h s ∧ d[s.mSize]? = some 0 := by
  obtain ⟨h1, d, e, f, hl, ht, hz⟩ := ctor_copy_capacity_ok h s _ hv hn
  refine ⟨h1.release s.mBuf, d, ?_, fresh_release f hv.1, hl, ht, hz⟩
  unfold mReallocate
  simp only [growTarget] at e
  simp only [e, swap, dtor, newCapacity, growTarget]

/-- C1: for an instance `s` sharing its buffer with another instance `t` and an index
`i < s.size()`, the proxy write `s[i] = v` succeeds; afterwards the content of `t` is
unchanged (its size is a member of `t`, which the write does not receive), the content of
`s` is its previous content with only position `i` replaced by `v`, size and capacity of
`s` are unchanged, and `s` holds a buffer of its own, different from the buffer of `t`. -/
theorem proxy_write_privatizes (h : Heap) (s t : basic_lazy_string) (i : Nat) (v : Int)
    (hs : Valid h s) (ht : Valid h t) (hst : s.mBuf = t.mBuf)
    (hsh : mIsShared h s = true) (hi : i < size s) :
    ∃ h1 s1, index_assign h s i v = Except.ok (h1, s1) ∧
      content h1 t = content h t ∧
      content h1 s1 = (content h s).set i v ∧
      size s1 = size s ∧ capacity s1 = capacity s ∧
      s1.mBuf ≠ t.mBuf ∧ mIsShared h1 s1 = false ∧ Valid h1 t := by
  have hs0 := hs
  obtain ⟨hb, hcnt, hlen, hsz, hmax, hmin⟩ := hs
  simp only [size] at hi
  have hcap : mMinCapacity ≤ s.mCapacity := by
    rcases hmin with h0 | h0
    · omega
    · exact h0
  have hshared : (h.blocks s.mBuf).useCount ≠ 1 := by
    simpa [mIsShared] using hsh
  have hg : growTarget s.mCapacity (capacity s) = s.mCapacity := by
    simp [growTarget, capacity]
  have hnc : newCapacity s (capacity s) = s.mCapacity := by
    simp only [newCapacity, hg, allocCap]
    simp only [gt_iff_lt, lt_irrefl, if_false]
    split <;> omega
  obtain ⟨h1, d, e, r, hl, htk, _⟩ := mReallocate_ok h s (capacity s) hs0 (by rw [hg]; exact hmax)
  rw [hnc] at e hl
  obtain ⟨h2, e2, u2⟩ := write_owned r.2.2.1 i v (by omega)
  have htb : t.mBuf < h.next := ht.1
  have hbuf_t : h2.buf t.mBuf = h.buf t.mBuf := by
    rw [upd_buf_other u2 (Nat.ne_of_lt htb), realloc_buf_old r htb (Or.inr hshared)]
  refine ⟨h2, ⟨h.next, s.mCapacity, s.mSize⟩, ?_, ?_, ?_, rfl, rfl, ?_, ?_, ?_⟩
  · have hr : mCheckRange s i = Except.ok () := by
      simp [mCheckRange]; omega
    simp only [index_assign, operator_index, hr, char_proxy.assign, hsh, if_true, e, e2]
  · simp only [content, mGetBuf, hbuf_t]
  · simp only [content, mGetBuf, upd_buf_same u2, List.set_take, htk]
  · exact Ne.symm (Nat.ne_of_lt htb)
  · simp [mIsShared, u2.2.2.1]
  · have hne : t.mBuf ≠ h.next := Nat.ne_of_lt htb
    have hblk : h2.blocks t.mBuf = ⟨(h.blocks s.mBuf).store, (h.blocks s.mBuf).useCount - 1⟩ := by
      rw [u2.2.2.2 _ hne, ← hst, r.2.2.2.1, release_blocks, if_pos rfl, if_neg hshared]
    refine ⟨?_, ?_, ?_, ht.2.2.2⟩
    · rw [u2.2.1, r.2.1]; omega
    · rw [hblk]; simp only; omega
    · rw [hbuf_t]; exact ht.2.2.1

/-- C1 at `foo = "12345"; bar = foo; foo[2] = 'x'`. -/
theorem proxy_write_privatizes_witness :
    Valid ex_shared.1 ex_shared.2 ∧ mIsShared ex_shared.1 ex_shared.2 = true ∧
    2 < size ex_shared.2 ∧
    ∃ h1 s1, index_assign ex_shared.1 ex_shared.2 2 120 = Except.ok (h1, s1) ∧
      content h1 ex_shared.2 = content ex_shared.1 ex_shared.2 ∧
      content h1 s1 = (content ex_shared.1 ex_shared.2).set 2 120 ∧
      size s1 = size ex_shared.2 ∧ capacity s1 = capacity ex_shared.2 ∧
      s1.mBuf ≠ ex_shared.2.mBuf ∧ mIsShared h1 s1 = false ∧ Valid h1 ex_shared.2 :=
  ⟨by decide, by decide, by decide,
    proxy_write_privatizes ex_shared.1 ex_shared.2 ex_shared.2 2 120
      (by decide) (by decide) rfl (by decide) (by decide)⟩

theorem write_owned_inv {h h1 : Heap} {k : Nat} {d : List Int} {c : Nat}
    (hk : h.blocks k = ⟨Store.owned d, c⟩) {i v : Int}
    (e : h.write k i v = Except.ok h1) : Upd h h1 k (d.set i.toNat v) c := by
  unfold Heap.write at e
  split at e
  · simp only [Except.ok.injEq] at e
    rw [← e, buf_of_block hk]
    exact setBuf_owned hk _
  · simp at e

theorem copy_owned_inv {h h1 : Heap} {k : Nat} {d : List Int} {c : Nat}
    (hk : h.blocks k = ⟨Store.owned d, c⟩) {off n : Nat} {src : List Int}
    (e : h.copy k off src n = Except.ok h1) :
    Upd h h1 k (d.take off ++ src.take n ++ d.drop (off + n)) c := by
  unfold Heap.copy at e
  split at e
  · simp only [Except.ok.injEq] at e
    rw [← e, buf_of_block hk]
    exact setBuf_owned hk _
  · simp at e

theorem mSetSize_owned_inv {h h1 : Heap} {s s1 : basic_lazy_string} {d : List Int} {c : Nat}
    (hk : h.blocks s.mBuf = ⟨Store.owned d, c⟩) {n : Nat}
    (e : mSetSize h s n = Except.ok (h1, s1)) :
    s1 = ⟨s.mBuf, s.mCapacity, n⟩ ∧ Upd h h1 s.mBuf (d.set n 0) c := by
  unfold mSetSize at e
  split at e
  · next h2 e2 =>
    simp only [Except.ok.injEq, Prod.mk.injEq] at e
    obtain ⟨e3, e4⟩ := e
    subst e3
    exact ⟨e4.symm, by simpa using write_owned_inv hk e2⟩
  · simp at e

theorem mReallocate_err (h : Heap) (s : basic_lazy_string) (n : Nat)
    (hmax : s.mCapacity ≤ mMaxCapacity)
    (hn : ¬ growTarget s.mCapacity n ≤ mMaxCapacity) :
    mReallocate h s n = Except.error Err.size_limit_exceeded := by
  have hgt : growTarget s.mCapacity n > s.mCapacity := by omega
  have hc : ctor_capacity h (growTarget s.mCapacity n) = Except.error Err.size_limit_exceeded := by
    unfold ctor_capacity
    rw [if_pos (by omega)]
  unfold mReallocate ctor_copy_capacity
  simp only [growTarget] at hgt hc
  simp only [hgt, if_true, hc]

theorem mReallocate_inv {h h1 : Heap} {s s1 : basic_lazy_string} {n : Nat} (hv : Valid h s)
    (e : mReallocate h s n = Except.ok (h1, s1)) :
    ∃ d, s1 = ⟨h.next, newCapacity s n, s.mSize⟩ ∧
      Realloc h h1 s.mBuf d ∧ d.length = newCapacity s n + 1 ∧
      d.take s.mSize = content h s ∧ d[s.mSize]? = some 0 := by
  by_cases hn : growTarget s.mCapacity n ≤ mMaxCapacity
  · obtain ⟨h2, d, e2, r, hl, ht, hz⟩ := mReallocate_ok h s n hv hn
    rw [e2] at e
    simp only [Except.ok.injEq, Prod.mk.injEq] at e
    obtain ⟨e3, e4⟩ := e
    subst e3
    exact ⟨d, e4.symm, r, hl, ht, hz⟩
  · rw [mReallocate_err h s n hv.2.2.2.2.1 hn] at e
    simp at e

/-- A valid instance whose buffer is not freed by a reallocation stays valid and keeps
its buffer. -/
theorem realloc_frame {h h1 : Heap} {k : Nat} {d : List Int} (r : Realloc h h1 k d)
    {t : basic_lazy_string} (ht : Valid h t)
    (hs : t.mBuf ≠ k ∨ (h.blocks k).useCount ≠ 1) :
    Valid h1 t ∧ mGetBuf h1 t = mGetBuf h t := by
  have hb := realloc_buf_old r ht.1 hs
  refine ⟨⟨?_, ?_, ?_, ht.2.2.2⟩, hb⟩
  · rw [r.2.1]; exact Nat.lt_succ_of_lt ht.1
  · by_cases hjk : t.mBuf = k
    · have hc : (h.blocks k).useCount ≠ 1 := by
        rcases hs with hs | hs
        · exact absurd hjk hs
        · exact hs
      have h1c : 1 ≤ (h.blocks k).useCount := hjk ▸ ht.2.1
      rw [hjk, r.2.2.2.1, release_blocks, if_pos rfl, if_neg hc]
      simp only
      omega
    · rw [r.2.2.2.2 _ (Nat.ne_of_lt ht.1) hjk]
      exact ht.2.1
  · rw [hb]; exact ht.2.2.1

theorem mAppend_chr_shared_inv {h h3 : Heap} {s s3 : basic_lazy_string} {chr : Int}
    (hv : Valid h s) (hsh : mIsShared h s = true)
    (e : mAppend_chr h s chr = Except.ok (h3, s3)) :
    ∃ d3, Realloc h h3 s.mBuf d3 ∧ s3.mBuf = h.next := by
  unfold mAppend_chr at e
  simp only [hsh, or_true, if_true] at e
  split at e
  · simp at e
  · next h1 s1 e1 =>
    obtain ⟨d, hs1, r, _, _, _⟩ := mReallocate_inv hv e1
    subst hs1
    split at e
    · simp at e
    · next h2 e2 =>
      have u2 := write_owned_inv r.2.2.1 e2
      have r2 := realloc_upd r hv.1 u2
      obtain ⟨hs3, u3⟩ := mSetSize_owned_inv (s := ⟨h.next, newCapacity s _, s.mSize⟩) r2.2.2.1 e
      exact ⟨_, realloc_upd r2 hv.1 u3, by rw [hs3]⟩

theorem mAppend_shared_inv {h h3 : Heap} {s s3 : basic_lazy_string} {str : Ptr} {addSize : Nat}
    (hv : Valid h s) (hsh : mIsShared h s = true) (hadd : addSize ≠ 0)
    (e : mAppend h s str addSize = Except.ok (h3, s3)) :
    ∃ d3, Realloc h h3 s.mBuf d3 ∧ s3.mBuf = h.next := by
  unfold mAppend at e
  simp only [hadd, if_false, hsh, or_true, if_true] at e
  split at e
  · simp at e
  · next h1 s1 e1 =>
    obtain ⟨d, hs1, r, _, _, _⟩ := mReallocate_inv hv e1
    subst hs1
    split at e
    · simp at e
    · next h2 e2 =>
      have u2 := copy_owned_inv r.2.2.1 e2
      have r2 := realloc_upd r hv.1 u2
      obtain ⟨hs3, u3⟩ := mSetSize_owned_inv (s := ⟨h.next, newCapacity s _, s.mSize⟩) r2.2.2.1 e
      exact ⟨_, realloc_upd r2 hv.1 u3, by rw [hs3]⟩

theorem mAppend_zero (h : Heap) (s : basic_lazy_string) (str : Ptr) :
    mAppend h s str 0 = Except.ok (h, s) := by
  simp [mAppend]

theorem appendFrame_of_realloc {h h3 : Heap} {s s3 t : basic_lazy_string} {d3 : List Int}
    (ht : Valid h t) (hsh : mIsShared h s = true)
    (r : Realloc h h3 s.mBuf d3) (hb : s3.mBuf = h.next) (added : Nat) :
    AppendFrame h t added (h3, s3) := by
  have hc : (h.blocks s.mBuf).useCount ≠ 1 := by simpa [mIsShared] using hsh
  obtain ⟨v, hbuf⟩ := realloc_frame r ht (Or.inr hc)
  refine ⟨v, hbuf, ?_, fun _ => ⟨?_, ?_⟩⟩
  · simp only [content, hbuf]
  · simp only [hb]; exact Ne.symm (Nat.ne_of_lt ht.1)
  · simp [mIsShared, hb, r.2.2.1]

theorem mCheckRange_ok {s : basic_lazy_string} {idx : Nat} (hi : idx < s.mSize) :
    mCheckRange s idx = Except.ok () := by
  simp [mCheckRange, hi]

theorem mCheckRange_err {s : basic_lazy_string} {idx : Nat} (hi : s.mSize ≤ idx) :
    mCheckRange s idx = Except.error Err.out_of_range := by
  simp [mCheckRange, hi]

theorem operator_index_const_ok {h : Heap} {s : basic_lazy_string} (hv : Valid h s)
    {idx : Nat} (hi : idx < s.mSize) :
    ∃ v, operator_index_const h s idx = Except.ok v ∧ (content h s)[idx]? = some v := by
  have hlt : idx < (h.buf s.mBuf).length := by
    have := hv.2.2.1
    have := hv.2.2.2.1
    omega
  refine ⟨(h.buf s.mBuf)[idx], ?_, ?_⟩
  · simp [operator_index_const, mCheckRange_ok hi, Heap.read, List.getElem?_eq_getElem hlt]
  · simp [content, mGetBuf, List.getElem?_take, hi, List.getElem?_eq_getElem hlt]

/-- C3: on a valid instance, the const indexed access and the non-const (proxy returning)
indexed access fail with the out-of-range error if and only if `idx >= size()`; below
`size()` the const access returns the stored element and the non-const access returns the
proxy for `idx`; in particular `idx == size()` fails and, for a non-empty instance,
`idx == size() - 1` succeeds. -/
theorem index_out_of_range_iff (h : Heap) (s : basic_lazy_string) (idx : Nat)
    (hv : Valid h s) :
    (operator_index_const h s idx = Except.error Err.out_of_range ↔ size s ≤ idx) ∧
    (operator_index s idx = Except.error Err.out_of_range ↔ size s ≤ idx) ∧
    (idx < size s →
      (∃ v, operator_index_const h s idx = Except.ok v ∧ (content h s)[idx]? = some v) ∧
      operator_index s idx = Except.ok ⟨idx⟩) ∧
    operator_index_const h s (size s) = Except.error Err.out_of_range ∧
    operator_index s (size s) = Except.error Err.out_of_range ∧
    (0 < size s →
      (∃ v, operator_index_const h s (size s - 1) = Except.ok v) ∧
      operator_index s (size s - 1) = Except.ok ⟨size s - 1⟩) := by
  simp only [size]
  refine ⟨?_, ?_, ?_, ?_, ?_, ?_⟩
  · constructor
    · intro e
      by_contra hlt
      obtain ⟨v, ev, _⟩ := operator_index_const_ok hv (Nat.lt_of_not_le hlt)
      rw [ev] at e
      simp at e
    · intro hle
      simp [operator_index_const, mCheckRange_err hle]
  · constructor
    · intro e
      by_contra hlt
      simp [operator_index, mCheckRange_ok (Nat.lt_of_not_le hlt)] at e
    · intro hle
      simp [operator_index, mCheckRange_err hle]
  · intro hi
    exact ⟨operator_index_const_ok hv hi, by simp [operator_index, mCheckRange_ok hi]⟩
  · simp [operator_index_const, mCheckRange_err (Nat.le_refl s.mSize)]
  · simp [operator_index, mCheckRange_err (Nat.le_refl s.mSize)]
  · intro hpos
    have hi : s.mSize - 1 < s.mSize := by omega
    obtain ⟨v, ev, _⟩ := operator_index_const_ok hv hi
    exact ⟨⟨v, ev⟩, by simp [operator_index, mCheckRange_ok hi]⟩

/-- C3 at `foo = "12345"` and index `5 = size()`: both accesses fail; index `4` succeeds. -/
theorem index_out_of_range_iff_witness :
    Valid ex_shared.1 ex_shared.2 ∧
    ((operator_index_const ex_shared.1 ex_shared.2 5 = Except.error Err.out_of_range ↔
        size ex_shared.2 ≤ 5) ∧
    (operator_index ex_shared.2 5 = Except.error Err.out_of_range ↔ size ex_shared.2 ≤ 5) ∧
    (5 < size ex_shared.2 →
      (∃ v, operator_index_const ex_shared.1 ex_shared.2 5 = Except.ok v ∧
        (content ex_shared.1 ex_shared.2)[5]? = some v) ∧
      operator_index ex_shared.2 5 = Except.ok ⟨5⟩) ∧
    operator_index_const ex_shared.1 ex_shared.2 (size ex_shared.2)
      = Except.error Err.out_of_range ∧
    operator_index ex_shared.2 (size ex_shared.2) = Except.error Err.out_of_range ∧
    (0 < size ex_shared.2 →
      (∃ v, operator_index_const ex_shared.1 ex_shared.2 (size ex_shared.2 - 1)
        = Except.ok v) ∧
      operator_index ex_shared.2 (size ex_shared.2 - 1) = Except.ok ⟨size ex_shared.2 - 1⟩)) :=
  ⟨by decide, index_out_of_range_iff ex_shared.1 ex_shared.2 5 (by decide)⟩

theorem char_traits_length_le (x : List Int) : char_traits_length x ≤ x.length := by
  unfold char_traits_length
  exact (List.takeWhile_sublist _).length_le

theorem allocCap_le_max {c : Nat} (hc : c ≤ mMaxCapacity) : allocCap c ≤ mMaxCapacity := by
  unfold allocCap
  split
  · exact hc
  · decide

theorem le_allocCap (c : Nat) : c ≤ allocCap c := by
  unfold allocCap; split <;> omega

theorem min_le_allocCap (c : Nat) : mMinCapacity ≤ allocCap c := by
  unfold allocCap; split <;> omega

/-- The result of the constructor from raw content. -/
theorem ctor_cstr_ok (h : Heap) (x : List Int) (hl : char_traits_length x ≤ mMaxCapacity) :
    ∃ h1 d, ctor_cstr h x = Except.ok
        (h1, ⟨h.next + 1, allocCap (char_traits_length x), char_traits_length x⟩) ∧
      h1.blocks (h.next + 1) = ⟨Store.owned d, 1⟩ ∧ h1.next = h.next + 2 ∧
      h1.mNull = h.mNull ∧ (∀ j, j < h.next → h1.blocks j = h.blocks j) ∧
      d.length = allocCap (char_traits_length x) + 1 ∧
      d.take (char_traits_length x) = x.take (char_traits_length x) ∧
      d[char_traits_length x]? = some 0 := by
  set n := char_traits_length x with hn
  have hnx : n ≤ x.length := char_traits_length_le x
  have hna := le_allocCap n
  have hd1 : (ctor_default h).1.next = h.next + 1 := rfl
  have hd2 : (ctor_default h).2 = ⟨h.next, 0, 0⟩ := rfl
  have hd3 : (ctor_default h).1.mNull = h.mNull := rfl
  have hd4 : ∀ j, j < h.next → (ctor_default h).1.blocks j = h.blocks j := by
    intro j hj
    simp [ctor_default, Heap.alloc, setBlock, Nat.ne_of_lt hj]
  obtain ⟨h1, e1, f1⟩ := ctor_capacity_ok (ctor_default h).1 n hl
  rw [hd1] at e1
  obtain ⟨h2, e2, u2⟩ := copy_owned f1.2.2.1 0 x n hnx (by simp; omega)
  have f2 := fresh_upd f1 u2
  obtain ⟨h3, e3, u3⟩ := mSetSize_owned
    (s := ⟨h.next + 1, allocCap n, 0⟩) (h := h2) f2.2.2.1 n (by simp; omega)
  have f3 := fresh_upd f2 u3
  obtain ⟨g1, g2, g3, g4⟩ := f3
  rw [hd1] at g2 g3 g4
  simp only [List.take_zero, List.nil_append, Nat.zero_add] at g3
  have hl2 : (List.take n x).length = n := by simp; omega
  refine ⟨h3.release h.next,
    (List.take n x ++ List.drop n (List.replicate (allocCap n + 1) 0)).set n 0,
    ?_, ?_, ?_, ?_, ?_, ?_, ?_, ?_⟩
  · rw [hd1] at e2
    simp only [ctor_cstr, ← hn, e1, e2, e3, hd2, swap, dtor]
  · rw [release_blocks, if_neg (by omega), g3]
  · rw [release_next, g2]
  · rw [release_mNull, g1, hd3]
  · intro j hj
    rw [release_blocks, if_neg (by omega), g4 j (by omega), hd4 j hj]
  · simp; omega
  · rw [take_set_of_le _ _ _ _ (Nat.le_refl _), List.take_append_of_le_length (by omega)]
    rw [List.take_of_length_le (by omega)]
  · rw [List.getElem?_set_self (by simp; omega)]

theorem char_traits_lt_irrefl (a : Int) : ¬ char_traits_lt a a := by
  simp [char_traits_lt]

theorem char_traits_compare_take (l1 l2 : List Int) (n : Nat) :
    char_traits_compare l1 l2 n = char_traits_compare (l1.take n) (l2.take n) n := by
  induction n generalizing l1 l2 with
  | zero => simp [char_traits_compare]
  | succ n ih =>
    cases l1 with
    | nil => simp [char_traits_compare]
    | cons a l1 =>
      cases l2 with
      | nil => simp [char_traits_compare]
      | cons b l2 =>
        simp only [List.take_succ_cons, char_traits_compare]
        rw [ih]

theorem char_traits_compare_self (l : List Int) (n : Nat) : char_traits_compare l l n = 0 := by
  induction n generalizing l with
  | zero => simp [char_traits_compare]
  | succ n ih =>
    cases l with
    | nil => simp [char_traits_compare]
    | cons a l => simp [char_traits_compare, char_traits_lt_irrefl, ih]

theorem toDiff_toSize_self (n : Nat) : toDiff (toSize ((n : Int) - (n : Int))) = 0 := by
  simp [toSize, toDiff]

/-- Comparing two buffers with the same first `n` elements and the same length `n`. -/
theorem mCompare_same_content (l1 l2 : List Int) (n : Nat) (hc : l1.take n = l2.take n) :
    mCompare char_traits_compare l1 n l2 n = 0 := by
  unfold mCompare
  simp only [Nat.min_self]
  rw [char_traits_compare_take, hc, char_traits_compare_self]
  simp only [if_true]
  exact toDiff_toSize_self n

/-- C4 (round trip): for null-terminated raw content `x` whose length does not exceed the
maximum capacity, the constructor from `x` succeeds with a valid instance `s` with
`size()` the length of `x`, content the elements of `x` before the terminator, `s[i]`
equal to `x[i]` for every `i < size()` (through the const operator and through the proxy),
`s.compare(x) == 0`, and both `s == x` and `x == s`. -/
theorem ctor_cstr_round_trip (h : Heap) (x : List Int) (_hx : (0 : Int) ∈ x)
    (hl : char_traits_length x ≤ mMaxCapacity) :
    ∃ h1 s, ctor_cstr h x = Except.ok (h1, s) ∧ Valid h1 s ∧
      size s = char_traits_length x ∧
      content h1 s = x.take (char_traits_length x) ∧
      (∀ i, i < size s → ∃ v, x[i]? = some v ∧
        operator_index_const h1 s i = Except.ok v ∧
        operator_index s i = Except.ok ⟨i⟩ ∧
        (⟨i⟩ : char_proxy).value h1 s = Except.ok v) ∧
      compare_ptr char_traits_compare h1 s x = 0 ∧
      operator_eq_ptr_rhs char_traits_compare h1 s x = true ∧
      operator_eq_ptr_lhs char_traits_compare h1 x s = true := by
  obtain ⟨h1, d, e, hb, hnext, _, _, hlen, htake, _⟩ := ctor_cstr_ok h x hl
  have hbuf : h1.buf (h.next + 1) = d := buf_of_block hb
  have hnx := char_traits_length_le x
  have hv : Valid h1 ⟨h.next + 1, allocCap (char_traits_length x), char_traits_length x⟩ := by
    refine ⟨?_, ?_, ?_, le_allocCap _, allocCap_le_max hl, Or.inr (min_le_allocCap _)⟩
    · simp only [hnext]; omega
    · simp only [hb]; omega
    · simp only [hbuf, hlen]
  have hcmp : compare_ptr char_traits_compare h1
      ⟨h.next + 1, allocCap (char_traits_length x), char_traits_length x⟩ x = 0 := by
    simp only [compare_ptr, c_str, Ptr.deref, size, hbuf]
    exact mCompare_same_content _ _ _ htake
  refine ⟨h1, _, e, hv, rfl, ?_, ?_, hcmp, ?_, ?_⟩
  · simp only [content, mGetBuf, hbuf, htake]
  · intro i hi
    simp only [size] at hi
    obtain ⟨v, ev, hc⟩ := operator_index_const_ok hv hi
    have hxi : x[i]? = some v := by
      simp only [content, mGetBuf, hbuf, htake] at hc
      rw [List.getElem?_take, if_pos hi] at hc
      exact hc
    have hr : mCheckRange ⟨h.next + 1, allocCap (char_traits_length x),
        char_traits_length x⟩ i = Except.ok () := mCheckRange_ok hi
    refine ⟨v, hxi, ev, by simp only [operator_index, hr], ?_⟩
    simp only [operator_index_const, hr] at ev
    exact ev
  · simp [operator_eq_ptr_rhs, hcmp]
  · simp [operator_eq_ptr_lhs, hcmp]

/-- C4 at `x = "I am cstr!"` on the empty heap. -/
theorem ctor_cstr_round_trip_witness :
    ((0 : Int) ∈ [73, 32, 97, 109, 32, 99, 115, 116, 114, 33, 0] ∧
      char_traits_length [73, 32, 97, 109, 32, 99, 115, 116, 114, 33, 0] ≤ mMaxCapacity) ∧
    contentAfter ex_cstr = some [73, 32, 97, 109, 32, 99, 115, 116, 114, 33] ∧
    ∃ h1 s, ctor_cstr Heap.empty [73, 32, 97, 109, 32, 99, 115, 116, 114, 33, 0]
        = Except.ok (h1, s) ∧ Valid h1 s ∧
      size s = char_traits_length [73, 32, 97, 109, 32, 99, 115, 116, 114, 33, 0] ∧
      content h1 s = [73, 32, 97, 109, 32, 99, 115, 116, 114, 33, 0].take
        (char_traits_length [73, 32, 97, 109, 32, 99, 115, 116, 114, 33, 0]) ∧
      (∀ i, i < size s → ∃ v, [73, 32, 97, 109, 32, 99, 115, 116, 114, 33, 0][i]? = some v ∧
        operator_index_const h1 s i = Except.ok v ∧
        operator_index s i = Except.ok ⟨i⟩ ∧
        (⟨i⟩ : char_proxy).value h1 s = Except.ok v) ∧
      compare_ptr char_traits_compare h1 s [73, 32, 97, 109, 32, 99, 115, 116, 114, 33, 0] = 0 ∧
      operator_eq_ptr_rhs char_traits_compare h1 s
        [73, 32, 97, 109, 32, 99, 115, 116, 114, 33, 0] = true ∧
      operator_eq_ptr_lhs char_traits_compare h1
        [73, 32, 97, 109, 32, 99, 115, 116, 114, 33, 0] s = true :=
  ⟨⟨by decide, by decide⟩, by decide,
    ctor_cstr_round_trip Heap.empty [73, 32, 97, 109, 32, 99, 115, 116, 114, 33, 0]
      (by decide) (by decide)⟩

set_option maxRecDepth 100000 in
/-- C5 at 129 elements: the first 128 appends give size 128 and the appended content; the
129th append stores through the index `(char)128 = -128`, outside the buffer. -/
theorem append_each_129_fails :
    sizeAfter (ex_append_each (List.replicate 128 65)) = some 128 ∧
    contentAfter (ex_append_each (List.replicate 128 65)) = some (List.replicate 128 65) ∧
    errorOf (ex_append_each (List.replicate 129 65)) = some Err.undefined_behaviour := by
  decide

set_option maxRecDepth 100000 in
/-- C6 at operands of 127 elements and of one element: `a + b` throws the size-limit
error (with 126 and one it returns the 127 elements); at 256 elements and one element
`a + b` completes with the one element of `b` as its whole content. -/
theorem operator_plus_128_fails :
    contentAfter (ex_plus 126) = some (List.replicate 126 97 ++ [98]) ∧
    errorOf (ex_plus 127) = some Err.size_limit_exceeded ∧
    contentAfter (ex_plus 256) = some [98] := by
  decide

set_option maxRecDepth 100000 in
/-- C7 at operands of 126, one and one elements: neither `(a + b) + c` nor `a + (b + c)`
completes, both throw the size-limit error (with 125, one and one both return the 127
elements). -/
theorem operator_plus_assoc_128_fails :
    contentAfter (ex_assoc_left 125) = some (List.replicate 125 97 ++ [98, 99]) ∧
    contentAfter (ex_assoc_right 125) = some (List.replicate 125 97 ++ [98, 99]) ∧
    errorOf (ex_assoc_left 126) = some Err.size_limit_exceeded ∧
    errorOf (ex_assoc_right 126) = some Err.size_limit_exceeded := by
  decide

theorem char_traits_compare_eq_key (l1 l2 : List Int) (n : Nat) :
    char_traits_compare l1 l2 n = keyCompare toUChar l1 l2 n := by
  induction n generalizing l1 l2 with
  | zero => cases l1 <;> cases l2 <;> simp [char_traits_compare, keyCompare]
  | succ n ih =>
    cases l1 with
    | nil => simp [char_traits_compare, keyCompare]
    | cons a l1 =>
      cases l2 with
      | nil => simp [char_traits_compare, keyCompare]
      | cons b l2 => simp only [char_traits_compare, keyCompare, char_traits_lt, ih]

theorem ci_char_traits_compare_eq_key (l1 l2 : List Int) (n : Nat) :
    ci_char_traits_compare l1 l2 n = keyCompare tolower l1 l2 n := by
  induction n generalizing l1 l2 with
  | zero => cases l1 <;> cases l2 <;> simp [ci_char_traits_compare, keyCompare]
  | succ n ih =>
    cases l1 with
    | nil => simp [ci_char_traits_compare, keyCompare]
    | cons a l1 =>
      cases l2 with
      | nil => simp [ci_char_traits_compare, keyCompare]
      | cons b l2 => simp only [ci_char_traits_compare, keyCompare, gt_iff_lt, ih]

theorem keyCompare_take (k : Int → Int) (l1 l2 : List Int) (n : Nat) :
    keyCompare k l1 l2 n = keyCompare k (l1.take n) (l2.take n) n := by
  induction n generalizing l1 l2 with
  | zero => cases l1 <;> cases l2 <;> simp [keyCompare]
  | succ n ih =>
    cases l1 with
    | nil => simp [keyCompare]
    | cons a l1 =>
      cases l2 with
      | nil => simp [keyCompare]
      | cons b l2 =>
        simp only [List.take_succ_cons, keyCompare]
        rw [ih]

theorem keyCompare_range (k : Int → Int) (l1 l2 : List Int) (n : Nat) :
    keyCompare k l1 l2 n = -1 ∨ keyCompare k l1 l2 n = 0 ∨ keyCompare k l1 l2 n = 1 := by
  induction n generalizing l1 l2 with
  | zero => cases l1 <;> cases l2 <;> simp [keyCompare]
  | succ n ih =>
    cases l1 with
    | nil => simp [keyCompare]
    | cons a l1 =>
      cases l2 with
      | nil => simp [keyCompare]
      | cons b l2 =>
        simp only [keyCompare]
        split
        · simp
        · split
          · simp
          · exact ih l1 l2

theorem keySign_nil_left (k : Int → Int) (lb : List Int) :
    keySign k [] lb = -(lb.length : Int) := by
  simp [keySign, keyCompare]

theorem keySign_nil_right (k : Int → Int) (la : List Int) :
    keySign k la [] = (la.length : Int) := by
  cases la <;> simp [keySign, keyCompare]

theorem keySign_cons (k : Int → Int) (a b : Int) (la lb : List Int) :
    keySign k (a :: la) (b :: lb) =
      if k a < k b then -1 else if k b < k a then 1 else keySign k la lb := by
  simp only [keySign, List.length_cons, Nat.succ_min_succ, keyCompare]
  split
  · simp
  · split
    · simp
    · push_cast
      simp only [add_sub_add_right_eq_sub]

theorem keySign_neg_iff (k : Int → Int) (la lb : List Int) :
    keySign k la lb < 0 ↔ lex_precedes ltInt (la.map k) (lb.map k) = true := by
  induction la generalizing lb with
  | nil =>
    cases lb with
    | nil => simp [keySign_nil_left, lex_precedes]
    | cons b lb =>
      simp only [keySign_nil_left, List.map, lex_precedes, List.length_cons]
      constructor
      · intro _; trivial
      · intro _; omega
  | cons a la ih =>
    cases lb with
    | nil =>
      simp only [keySign_nil_right, List.map, lex_precedes, List.length_cons]
      constructor
      · intro hlt; omega
      · intro hf; cases hf
    | cons b lb =>
      simp only [keySign_cons, List.map, lex_precedes, ltInt]
      by_cases h1 : k a < k b
      · have hne : k a ≠ k b := by omega
        simp [h1, hne]
      · by_cases h2 : k b < k a
        · have hne : k a ≠ k b := by omega
          simp [h1, h2, hne]
        · have heq : k a = k b := by omega
          simp only [h1, h2, if_false, heq, if_true]
          simp only [lt_irrefl, if_false]
          exact ih lb

theorem keySign_eq_zero_iff (k : Int → Int) (la lb : List Int) :
    keySign k la lb = 0 ↔ la.map k = lb.map k := by
  induction la generalizing lb with
  | nil =>
    cases lb with
    | nil => simp [keySign_nil_left]
    | cons b lb =>
      simp only [keySign_nil_left, List.map, List.length_cons]
      constructor
      · intro hz; omega
      · intro hf; cases hf
  | cons a la ih =>
    cases lb with
    | nil =>
      simp only [keySign_nil_right, List.map, List.length_cons]
      constructor
      · intro hz; omega
      · intro hf; cases hf
    | cons b lb =>
      simp only [keySign_cons, List.map, List.cons.injEq]
      by_cases h1 : k a < k b
      · have hne : k a ≠ k b := by omega
        simp [h1, hne]
      · by_cases h2 : k b < k a
        · have hne : k a ≠ k b := by omega
          simp [h1, h2, hne]
        · have heq : k a = k b := by omega
          simp only [h1, h2, if_false, heq, true_and]
          simp only [lt_irrefl, if_false]
          exact ih lb

theorem keySign_swap (k : Int → Int) (la lb : List Int) :
    keySign k lb la = -keySign k la lb := by
  induction la generalizing lb with
  | nil => simp [keySign_nil_left, keySign_nil_right]
  | cons a la ih =>
    cases lb with
    | nil => simp [keySign_nil_left, keySign_nil_right]
    | cons b lb =>
      simp only [keySign_cons]
      by_cases h1 : k a < k b
      · have h2 : ¬ k b < k a := by omega
        simp [h1, h2]
      · by_cases h2 : k b < k a
        · simp [h1, h2]
        · simp only [h1, h2, if_false]
          exact ih lb

theorem toDiff_toSize_sub (n1 n2 : Nat) (h1 : n1 < 2 ^ 63) (h2 : n2 < 2 ^ 63) :
    toDiff (toSize ((n1 : Int) - (n2 : Int))) = (n1 : Int) - (n2 : Int) := by
  unfold toDiff toSize
  have hm : (0 : Int) ≤ ((n1 : Int) - (n2 : Int)) % 2 ^ 64 := Int.emod_nonneg _ (by norm_num)
  have hlt : ((n1 : Int) - (n2 : Int)) % 2 ^ 64 < 2 ^ 64 := Int.emod_lt_of_pos _ (by norm_num)
  have e : (((((n1 : Int) - (n2 : Int)) % 2 ^ 64).toNat % 2 ^ 64 : Nat) : Int)
      = ((n1 : Int) - (n2 : Int)) % 2 ^ 64 := by
    rw [Nat.mod_eq_of_lt (by omega)]
    exact Int.toNat_of_nonneg hm
  norm_num at h1 h2 hm hlt e ⊢
  split <;> omega

/-- The member `mCompare` with a key comparison, on buffers, is `keySign` on contents. -/
theorem mCompare_eq_keySign (k : Int → Int) (l1 l2 : List Int) (n1 n2 : Nat)
    (h1 : n1 ≤ l1.length) (h2 : n2 ≤ l2.length) (hb1 : n1 < 2 ^ 63) (hb2 : n2 < 2 ^ 63) :
    mCompare (keyCompare k) l1 n1 l2 n2 = keySign k (l1.take n1) (l2.take n2) := by
  have e1 : (l1.take n1).length = n1 := by simp [h1]
  have e2 : (l2.take n2).length = n2 := by simp [h2]
  have ec : keyCompare k (l1.take n1) (l2.take n2) (min n1 n2)
      = keyCompare k l1 l2 (min n1 n2) := by
    rw [keyCompare_take k (l1.take n1), keyCompare_take k l1 l2, List.take_take,
      List.take_take]
    simp
  unfold mCompare keySign
  rw [e1, e2, ec, toDiff_toSize_sub n1 n2 hb1 hb2]

theorem toUChar_inj {a b : Int} (ha : IsChar a) (hb : IsChar b)
    (e : toUChar a = toUChar b) : a = b := by
  unfold toUChar at e
  unfold IsChar at ha hb
  omega

theorem lex_precedes_uchar (la lb : List Int) (ha : ∀ c ∈ la, IsChar c)
    (hb : ∀ c ∈ lb, IsChar c) :
    lex_precedes ltInt (la.map toUChar) (lb.map toUChar) = lex_precedes ltUChar la lb := by
  induction la generalizing lb with
  | nil => cases lb <;> simp [lex_precedes]
  | cons a la ih =>
    cases lb with
    | nil => simp [lex_precedes]
    | cons b lb =>
      have hia : IsChar a := ha a (List.mem_cons_self _ _)
      have hib : IsChar b := hb b (List.mem_cons_self _ _)
      simp only [List.map, lex_precedes]
      by_cases e : a = b
      · subst e
        simp only [if_true]
        exact ih lb (fun c hc => ha c (List.mem_cons_of_mem _ hc))
          (fun c hc => hb c (List.mem_cons_of_mem _ hc))
      · have e2 : toUChar a ≠ toUChar b := fun h => e (toUChar_inj hia hib h)
        simp only [e, e2, if_false, ltInt, ltUChar, char_traits_lt]

theorem map_toUChar_inj (la lb : List Int) (ha : ∀ c ∈ la, IsChar c)
    (hb : ∀ c ∈ lb, IsChar c) :
    la.map toUChar = lb.map toUChar ↔ la = lb := by
  induction la generalizing lb with
  | nil => cases lb <;> simp
  | cons a la ih =>
    cases lb with
    | nil => simp
    | cons b lb =>
      have hia : IsChar a := ha a (List.mem_cons_self _ _)
      have hib : IsChar b := hb b (List.mem_cons_self _ _)
      simp only [List.map, List.cons.injEq]
      rw [ih lb (fun c hc => ha c (List.mem_cons_of_mem _ hc))
        (fun c hc => hb c (List.mem_cons_of_mem _ hc))]
      constructor
      · rintro ⟨e1, e2⟩
        exact ⟨toUChar_inj hia hib e1, e2⟩
      · rintro ⟨e1, e2⟩
        exact ⟨by rw [e1], e2⟩

theorem mMaxCapacity_lt : mMaxCapacity < 2 ^ 63 := by decide

/-- The member `compare` of two valid instances, for a key comparison. -/
theorem compare_eq_keySign (k : Int → Int) (h : Heap) (a b : basic_lazy_string)
    (ha : Valid h a) (hb : Valid h b) :
    compare (keyCompare k) h a b = keySign k (content h a) (content h b) := by
  have hm := mMaxCapacity_lt
  obtain ⟨_, _, la, sa, ma, _⟩ := ha
  obtain ⟨_, _, lb, sb, mb, _⟩ := hb
  simp only [compare, c_str, Ptr.deref, size, content, mGetBuf]
  exact mCompare_eq_keySign k _ _ _ _ (by omega) (by omega) (by omega) (by omega)

theorem char_traits_compare_fun : char_traits_compare = keyCompare toUChar := by
  funext l1 l2 n
  exact char_traits_compare_eq_key l1 l2 n

theorem ci_char_traits_compare_fun : ci_char_traits_compare = keyCompare tolower := by
  funext l1 l2 n
  exact ci_char_traits_compare_eq_key l1 l2 n

/-- C8: for valid instances `a` and `b` of `char` elements under the default policy,
`a.compare(b)` is negative iff the content of `a` precedes the content of `b` in the
lexicographic order (first differing element smaller by `char_traits::lt`, or `a` a
proper initial segment of `b`), zero iff the contents are equal, and positive iff the
content of `b` precedes the content of `a`; when the first `min(size)` elements compare
equal the result is `size - other.size`. -/
theorem compare_sign_lexicographic (h : Heap) (a b : basic_lazy_string)
    (ha : Valid h a) (hb : Valid h b)
    (hca : ∀ c ∈ content h a, IsChar c) (hcb : ∀ c ∈ content h b, IsChar c) :
    (compare char_traits_compare h a b < 0 ↔
      lex_precedes ltUChar (content h a) (content h b) = true) ∧
    (compare char_traits_compare h a b = 0 ↔ content h a = content h b) ∧
    (0 < compare char_traits_compare h a b ↔
      lex_precedes ltUChar (content h b) (content h a) = true) ∧
    (char_traits_compare (mGetBuf h a) (mGetBuf h b) (min (size a) (size b)) = 0 →
      compare char_traits_compare h a b = (size a : Int) - (size b : Int)) := by
  rw [char_traits_compare_fun, compare_eq_keySign toUChar h a b ha hb]
  refine ⟨?_, ?_, ?_, ?_⟩
  · rw [keySign_neg_iff, lex_precedes_uchar _ _ hca hcb]
  · rw [keySign_eq_zero_iff, map_toUChar_inj _ _ hca hcb]
  · rw [← lex_precedes_uchar _ _ hcb hca, ← keySign_neg_iff, keySign_swap toUChar]
    omega
  · intro hz
    have hm := mMaxCapacity_lt
    rw [← compare_eq_keySign toUChar h a b ha hb]
    simp only [compare, mCompare, c_str, Ptr.deref]
    simp only [mGetBuf] at hz
    rw [hz]
    simp only [if_true]
    exact toDiff_toSize_sub _ _ (by have := ha.2.2.2.1; have := ha.2.2.2.2.1; simp only [size]; omega)
      (by have := hb.2.2.2.1; have := hb.2.2.2.2.1; simp only [size]; omega)

/-- C8 at `a = "fgh"`, `b = "fgh1"`: `a.compare(b)` is negative and `b.compare(a)` is
positive. -/
theorem compare_sign_lexicographic_witness :
    (Valid ex_pair.1 ex_pair.2.1 ∧ Valid ex_pair.1 ex_pair.2.2 ∧
      (∀ c ∈ content ex_pair.1 ex_pair.2.1, IsChar c) ∧
      (∀ c ∈ content ex_pair.1 ex_pair.2.2, IsChar c)) ∧
    (compare char_traits_compare ex_pair.1 ex_pair.2.1 ex_pair.2.2 = -1 ∧
      compare char_traits_compare ex_pair.1 ex_pair.2.2 ex_pair.2.1 = 1 ∧
      lex_precedes ltUChar (content ex_pair.1 ex_pair.2.1) (content ex_pair.1 ex_pair.2.2)
        = true) ∧
    ((compare char_traits_compare ex_pair.1 ex_pair.2.1 ex_pair.2.2 < 0 ↔
      lex_precedes ltUChar (content ex_pair.1 ex_pair.2.1) (content ex_pair.1 ex_pair.2.2)
        = true) ∧
    (compare char_traits_compare ex_pair.1 ex_pair.2.1 ex_pair.2.2 = 0 ↔
      content ex_pair.1 ex_pair.2.1 = content ex_pair.1 ex_pair.2.2) ∧
    (0 < compare char_traits_compare ex_pair.1 ex_pair.2.1 ex_pair.2.2 ↔
      lex_precedes ltUChar (content ex_pair.1 ex_pair.2.2) (content ex_pair.1 ex_pair.2.1)
        = true) ∧
    (char_traits_compare (mGetBuf ex_pair.1 ex_pair.2.1) (mGetBuf ex_pair.1 ex_pair.2.2)
        (min (size ex_pair.2.1) (size ex_pair.2.2)) = 0 →
      compare char_traits_compare ex_pair.1 ex_pair.2.1 ex_pair.2.2
        = (size ex_pair.2.1 : Int) - (size ex_pair.2.2 : Int))) :=
  ⟨⟨by decide, by decide, by decide, by decide⟩, by decide,
    compare_sign_lexicographic ex_pair.1 ex_pair.2.1 ex_pair.2.2
      (by decide) (by decide) (by decide) (by decide)⟩

/-- Constructing from raw content `x` next to a valid instance `s`: the result is a valid
new instance with the content of `x`, `s` is untouched, and comparing `s` with the new
one is comparing `s` with `x`. -/
theorem compare_cstr_key (k : Int → Int) (h : Heap) (s : basic_lazy_string) (x : List Int)
    (hs : Valid h s) (hl : char_traits_length x ≤ mMaxCapacity) :
    ∃ h1 sx, ctor_cstr h x = Except.ok (h1, sx) ∧ Valid h1 sx ∧ Valid h1 s ∧
      size sx = char_traits_length x ∧
      content h1 s = content h s ∧ content h1 sx = x.take (char_traits_length x) ∧
      compare (keyCompare k) h1 s sx = compare_ptr (keyCompare k) h s x ∧
      compare (keyCompare k) h1 sx s = -compare_ptr (keyCompare k) h s x := by
  obtain ⟨h1, d, e, hb, hnext, hnull, hold, hlen, htake, _⟩ := ctor_cstr_ok h x hl
  have hbuf : h1.buf (h.next + 1) = d := buf_of_block hb
  have hnx := char_traits_length_le x
  have hm := mMaxCapacity_lt
  have hvx : Valid h1 ⟨h.next + 1, allocCap (char_traits_length x), char_traits_length x⟩ := by
    refine ⟨?_, ?_, ?_, le_allocCap _, allocCap_le_max hl, Or.inr (min_le_allocCap _)⟩
    · simp only [hnext]; omega
    · simp only [hb]; omega
    · simp only [hbuf, hlen]
  have hsb : h1.buf s.mBuf = h.buf s.mBuf := buf_congr hnull (hold _ hs.1)
  have hvs : Valid h1 s := by
    refine ⟨?_, ?_, ?_, hs.2.2.2⟩
    · rw [hnext]; have := hs.1; omega
    · rw [hold _ hs.1]; exact hs.2.1
    · rw [hsb]; exact hs.2.2.1
  have hcs : content h1 s = content h s := by simp only [content, mGetBuf, hsb]
  have hcx : content h1 ⟨h.next + 1, allocCap (char_traits_length x), char_traits_length x⟩
      = x.take (char_traits_length x) := by
    simp only [content, mGetBuf, hbuf, htake]
  have hp : compare_ptr (keyCompare k) h s x
      = keySign k (content h s) (x.take (char_traits_length x)) := by
    simp only [compare_ptr, c_str, Ptr.deref, size, content, mGetBuf]
    have := hs.2.2.1
    have := hs.2.2.2.1
    have := hs.2.2.2.2.1
    exact mCompare_eq_keySign k _ _ _ _ (by omega) hnx (by omega) (by omega)
  refine ⟨h1, _, e, hvx, hvs, rfl, hcs, hcx, ?_, ?_⟩
  · rw [compare_eq_keySign k h1 _ _ hvs hvx, hcs, hcx, hp]
  · rw [compare_eq_keySign k h1 _ _ hvx hvs, hcs, hcx, hp, keySign_swap]

/-- C9: for raw null-terminated content `x` (of length at most the maximum capacity, so
that `lazy_string(x)` can be constructed) and a valid instance `s`, each relational
operator gives the same answer on `x` and on `lazy_string(x)`, in both operand orders,
and each is decided by the sign of `compare`: `x < s` iff `s.compare(x) > 0` iff
`lazy_string(x).compare(s) < 0`. -/
theorem relational_operators_agree (h : Heap) (s : basic_lazy_string) (x : List Int)
    (hs : Valid h s) (_hx : (0 : Int) ∈ x) (hl : char_traits_length x ≤ mMaxCapacity) :
    ∃ h1 sx, ctor_cstr h x = Except.ok (h1, sx) ∧
      (operator_lt_ptr_lhs char_traits_compare h x s = operator_lt char_traits_compare h1 sx s ∧
       operator_le_ptr_lhs char_traits_compare h x s = operator_le char_traits_compare h1 sx s ∧
       operator_gt_ptr_lhs char_traits_compare h x s = operator_gt char_traits_compare h1 sx s ∧
       operator_ge_ptr_lhs char_traits_compare h x s = operator_ge char_traits_compare h1 sx s ∧
       operator_eq_ptr_lhs char_traits_compare h x s = operator_eq char_traits_compare h1 sx s ∧
       operator_ne_ptr_lhs char_traits_compare h x s = operator_ne char_traits_compare h1 sx s) ∧
      (operator_lt_ptr_rhs char_traits_compare h s x = operator_lt char_traits_compare h1 s sx ∧
       operator_le_ptr_rhs char_traits_compare h s x = operator_le char_traits_compare h1 s sx ∧
       operator_gt_ptr_rhs char_traits_compare h s x = operator_gt char_traits_compare h1 s sx ∧
       operator_ge_ptr_rhs char_traits_compare h s x = operator_ge char_traits_compare h1 s sx ∧
       operator_eq_ptr_rhs char_traits_compare h s x = operator_eq char_traits_compare h1 s sx ∧
       operator_ne_ptr_rhs char_traits_compare h s x = operator_ne char_traits_compare h1 s sx) ∧
      ((operator_lt_ptr_lhs char_traits_compare h x s = true ↔
          compare_ptr char_traits_compare h s x > 0) ∧
       (compare_ptr char_traits_compare h s x > 0 ↔
          compare char_traits_compare h1 sx s < 0) ∧
       (operator_lt_ptr_rhs char_traits_compare h s x = true ↔
          compare char_traits_compare h1 s sx < 0)) := by
  rw [char_traits_compare_fun]
  obtain ⟨h1, sx, e, _, _, _, _, _, c1, c2⟩ := compare_cstr_key toUChar h s x hs hl
  refine ⟨h1, sx, e, ⟨?_, ?_, ?_, ?_, ?_, ?_⟩, ⟨?_, ?_, ?_, ?_, ?_, ?_⟩, ?_, ?_, ?_⟩
  · simp only [operator_lt_ptr_lhs, operator_lt, c2, decide_eq_decide]; omega
  · simp only [operator_le_ptr_lhs, operator_le, c2, decide_eq_decide]; omega
  · simp only [operator_gt_ptr_lhs, operator_gt, c2, decide_eq_decide]; omega
  · simp only [operator_ge_ptr_lhs, operator_ge, c2, decide_eq_decide]; omega
  · simp only [operator_eq_ptr_lhs, operator_eq, c2, decide_eq_decide]; omega
  · simp only [operator_ne_ptr_lhs, operator_ne, c2, decide_eq_decide]; omega
  · simp only [operator_lt_ptr_rhs, operator_lt, c1]
  · simp only [operator_le_ptr_rhs, operator_le, c1]
  · simp only [operator_gt_ptr_rhs, operator_gt, c1]
  · simp only [operator_ge_ptr_rhs, operator_ge, c1]
  · simp only [operator_eq_ptr_rhs, operator_eq, c1]
  · simp only [operator_ne_ptr_rhs, operator_ne, c1]
  · simp only [operator_lt_ptr_lhs, decide_eq_true_eq]
  · rw [c2]; omega
  · simp only [operator_lt_ptr_rhs, c1, decide_eq_true_eq]

/-- C9 at `x = "fgh"` and `s = "fgh1"`: `x < s` holds and `s < x` does not. -/
theorem relational_operators_agree_witness :
    (Valid ex_pair.1 ex_pair.2.2 ∧ (0 : Int) ∈ [102, 103, 104, 0] ∧
      char_traits_length [102, 103, 104, 0] ≤ mMaxCapacity) ∧
    (operator_lt_ptr_lhs char_traits_compare ex_pair.1 [102, 103, 104, 0] ex_pair.2.2 = true ∧
      operator_lt_ptr_rhs char_traits_compare ex_pair.1 ex_pair.2.2 [102, 103, 104, 0] = false ∧
      operator_lt char_traits_compare ex_pair.1 ex_pair.2.1 ex_pair.2.2 = true) ∧
    (∃ h1 sx, ctor_cstr ex_pair.1 [102, 103, 104, 0] = Except.ok (h1, sx) ∧
      (operator_lt_ptr_lhs char_traits_compare ex_pair.1 [102, 103, 104, 0] ex_pair.2.2 =
          operator_lt char_traits_compare h1 sx ex_pair.2.2 ∧
       operator_le_ptr_lhs char_traits_compare ex_pair.1 [102, 103, 104, 0] ex_pair.2.2 =
           operator_le char_traits_compare h1 sx ex_pair.2.2 ∧
       operator_gt_ptr_lhs char_traits_compare ex_pair.1 [102, 103, 104, 0] ex_pair.2.2 =
           operator_gt char_traits_compare h1 sx ex_pair.2.2 ∧
       operator_ge_ptr_lhs char_traits_compare ex_pair.1 [102, 103, 104, 0] ex_pair.2.2 =
           operator_ge char_traits_compare h1 sx ex_pair.2.2 ∧
       operator_eq_ptr_lhs char_traits_compare ex_pair.1 [102, 103, 104, 0] ex_pair.2.2 =
           operator_eq char_traits_compare h1 sx ex_pair.2.2 ∧
       operator_ne_ptr_lhs char_traits_compare ex_pair.1 [102, 103, 104, 0] ex_pair.2.2 =
           operator_ne char_traits_compare h1 sx ex_pair.2.2) ∧
      (operator_lt_ptr_rhs char_traits_compare ex_pair.1 ex_pair.2.2 [102, 103, 104, 0] =
          operator_lt char_traits_compare h1 ex_pair.2.2 sx ∧
       operator_le_ptr_rhs char_traits_compare ex_pair.1 ex_pair.2.2 [102, 103, 104, 0] =
           operator_le char_traits_compare h1 ex_pair.2.2 sx ∧
       operator_gt_ptr_rhs char_traits_compare ex_pair.1 ex_pair.2.2 [102, 103, 104, 0] =
           operator_gt char_traits_compare h1 ex_pair.2.2 sx ∧
       operator_ge_ptr_rhs char_traits_compare ex_pair.1 ex_pair.2.2 [102, 103, 104, 0] =
           operator_ge char_traits_compare h1 ex_pair.2.2 sx ∧
       operator_eq_ptr_rhs char_traits_compare ex_pair.1 ex_pair.2.2 [102, 103, 104, 0] =
           operator_eq char_traits_compare h1 ex_pair.2.2 sx ∧
       operator_ne_ptr_rhs char_traits_compare ex_pair.1 ex_pair.2.2 [102, 103, 104, 0] =
           operator_ne char_traits_compare h1 ex_pair.2.2 sx) ∧
      ((operator_lt_ptr_lhs char_traits_compare ex_pair.1 [102, 103, 104, 0] ex_pair.2.2 = true ↔
          compare_ptr char_traits_compare ex_pair.1 ex_pair.2.2 [102, 103, 104, 0] > 0) ∧
       (compare_ptr char_traits_compare ex_pair.1 ex_pair.2.2 [102, 103, 104, 0] > 0 ↔
          compare char_traits_compare h1 sx ex_pair.2.2 < 0) ∧
       (operator_lt_ptr_rhs char_traits_compare ex_pair.1 ex_pair.2.2 [102, 103, 104, 0] = true ↔
          compare char_traits_compare h1 ex_pair.2.2 sx < 0))) :=
  ⟨⟨by decide, by decide, by decide⟩, by decide,
    relational_operators_agree ex_pair.1 ex_pair.2.2 [102, 103, 104, 0]
      (by decide) (by decide) (by decide)⟩

theorem map_eq_iff_pointwise (k : Int → Int) (la lb : List Int) :
    la.map k = lb.map k ↔
      la.length = lb.length ∧ ∀ i, i < la.length → (la[i]?).map k = (lb[i]?).map k := by
  constructor
  · intro e
    have hlen : la.length = lb.length := by
      have := congrArg List.length e
      simpa using this
    refine ⟨hlen, fun i _ => ?_⟩
    have := congrArg (fun l => l[i]?) e
    simpa [List.getElem?_map] using this
  · rintro ⟨hlen, hp⟩
    apply List.ext_getElem?
    intro i
    by_cases hi : i < la.length
    · simpa [List.getElem?_map] using hp i hi
    · have h1 : (la.map k).length ≤ i := by simp; omega
      have h2 : (lb.map k).length ≤ i := by simp; omega
      rw [List.getElem?_eq_none h1, List.getElem?_eq_none h2]

theorem content_length {h : Heap} {s : basic_lazy_string} (hv : Valid h s) :
    (content h s).length = size s := by
  have := hv.2.2.1
  have := hv.2.2.2.1
  simp only [content, mGetBuf, size, List.length_take]
  omega

/-- C10: under the case-insensitive policy (`ci_char_traits`, the policy of
`lazy_istring`), for valid instances `a` and `b`: `a == b` holds iff they have the same
size and corresponding elements are equal after `tolower`; `a.compare(b)` is negative,
zero or positive as the lower-cased content of `a` precedes, equals or follows the
lower-cased content of `b` in the lexicographic order (elements compared by the `int`
values that `tolower` returns), and `a < b` is that precedence. Constructing from raw content `x` stores
the elements of `x` in their original case with `size()` the length of `x`; `compare`
and the operators return a value and no heap, so they change nothing. -/
theorem ci_policy_compares_lowercased (h : Heap) (a b : basic_lazy_string) (x : List Int)
    (ha : Valid h a) (hb : Valid h b) (hl : char_traits_length x ≤ mMaxCapacity) :
    (operator_eq ci_char_traits_compare h a b = true ↔
      size a = size b ∧
      ∀ i, i < size a →
        ((content h a)[i]?).map tolower = ((content h b)[i]?).map tolower) ∧
    (compare ci_char_traits_compare h a b < 0 ↔
      lex_precedes ltInt ((content h a).map tolower) ((content h b).map tolower) = true) ∧
    (compare ci_char_traits_compare h a b = 0 ↔
      (content h a).map tolower = (content h b).map tolower) ∧
    (0 < compare ci_char_traits_compare h a b ↔
      lex_precedes ltInt ((content h b).map tolower) ((content h a).map tolower) = true) ∧
    (operator_lt ci_char_traits_compare h a b =
      lex_precedes ltInt ((content h a).map tolower) ((content h b).map tolower)) ∧
    (∃ h1 sx, ctor_cstr h x = Except.ok (h1, sx) ∧ Valid h1 sx ∧
      size sx = char_traits_length x ∧ content h1 sx = x.take (char_traits_length x) ∧
      content h1 a = content h a ∧ content h1 b = content h b) := by
  have hneg := keySign_neg_iff tolower (content h a) (content h b)
  have hzero := keySign_eq_zero_iff tolower (content h a) (content h b)
  rw [ci_char_traits_compare_fun]
  refine ⟨?_, ?_, ?_, ?_, ?_, ?_⟩
  · simp only [operator_eq, decide_eq_true_eq]
    rw [compare_eq_keySign tolower h a b ha hb, hzero, map_eq_iff_pointwise,
      content_length ha, content_length hb]
  · rw [compare_eq_keySign tolower h a b ha hb]; exact hneg
  · rw [compare_eq_keySign tolower h a b ha hb]; exact hzero
  · rw [compare_eq_keySign tolower h a b ha hb, ← keySign_neg_iff, keySign_swap tolower]
    omega
  · simp only [operator_lt]
    rw [compare_eq_keySign tolower h a b ha hb]
    by_cases hp : lex_precedes ltInt ((content h a).map tolower)
        ((content h b).map tolower) = true
    · rw [hp, decide_eq_true_eq]; exact hneg.mpr hp
    · have hf : ¬ keySign tolower (content h a) (content h b) < 0 := fun hlt => hp (hneg.mp hlt)
      rw [Bool.not_eq_true] at hp
      rw [hp, decide_eq_false_iff_not]; exact hf
  · obtain ⟨h1, sx, e, hvx, _, hsz, hca, hcx, _, _⟩ := compare_cstr_key tolower h a x ha hl
    obtain ⟨h2, sx2, e2, _, _, _, hcb, _, _, _⟩ := compare_cstr_key tolower h b x hb hl
    rw [e] at e2
    simp only [Except.ok.injEq, Prod.mk.injEq] at e2
    obtain ⟨e3, _⟩ := e2
    subst e3
    exact ⟨h1, sx, e, hvx, hsz, hcx, hca, hcb⟩

/-- C10 at `a = "FOO"`, `b = "foo"`: `a == b` holds, sizes are 3, and the stored elements
of `a` are still the upper-case ones. -/
theorem ci_policy_compares_lowercased_witness :
    (Valid ex_ci_pair.1 ex_ci_pair.2.1 ∧ Valid ex_ci_pair.1 ex_ci_pair.2.2 ∧
      char_traits_length [70, 79, 79, 0] ≤ mMaxCapacity) ∧
    (operator_eq ci_char_traits_compare ex_ci_pair.1 ex_ci_pair.2.1 ex_ci_pair.2.2 = true ∧
      operator_eq char_traits_compare ex_ci_pair.1 ex_ci_pair.2.1 ex_ci_pair.2.2 = false ∧
      size ex_ci_pair.2.1 = 3 ∧ content ex_ci_pair.1 ex_ci_pair.2.1 = [70, 79, 79] ∧
      content ex_ci_pair.1 ex_ci_pair.2.2 = [102, 111, 111]) ∧
    ((operator_eq ci_char_traits_compare ex_ci_pair.1 ex_ci_pair.2.1 ex_ci_pair.2.2 = true ↔
      size ex_ci_pair.2.1 = size ex_ci_pair.2.2 ∧
      ∀ i, i < size ex_ci_pair.2.1 →
        ((content ex_ci_pair.1 ex_ci_pair.2.1)[i]?).map tolower
          = ((content ex_ci_pair.1 ex_ci_pair.2.2)[i]?).map tolower) ∧
    (compare ci_char_traits_compare ex_ci_pair.1 ex_ci_pair.2.1 ex_ci_pair.2.2 < 0 ↔
      lex_precedes ltInt ((content ex_ci_pair.1 ex_ci_pair.2.1).map tolower)
        ((content ex_ci_pair.1 ex_ci_pair.2.2).map tolower) = true) ∧
    (compare ci_char_traits_compare ex_ci_pair.1 ex_ci_pair.2.1 ex_ci_pair.2.2 = 0 ↔
      (content ex_ci_pair.1 ex_ci_pair.2.1).map tolower
        = (content ex_ci_pair.1 ex_ci_pair.2.2).map tolower) ∧
    (0 < compare ci_char_traits_compare ex_ci_pair.1 ex_ci_pair.2.1 ex_ci_pair.2.2 ↔
      lex_precedes ltInt ((content ex_ci_pair.1 ex_ci_pair.2.2).map tolower)
        ((content ex_ci_pair.1 ex_ci_pair.2.1).map tolower) = true) ∧
    (operator_lt ci_char_traits_compare ex_ci_pair.1 ex_ci_pair.2.1 ex_ci_pair.2.2 =
      lex_precedes ltInt ((content ex_ci_pair.1 ex_ci_pair.2.1).map tolower)
        ((content ex_ci_pair.1 ex_ci_pair.2.2).map tolower)) ∧
    (∃ h1 sx, ctor_cstr ex_ci_pair.1 [70, 79, 79, 0] = Except.ok (h1, sx) ∧ Valid h1 sx ∧
      size sx = char_traits_length [70, 79, 79, 0] ∧
      content h1 sx = [70, 79, 79, 0].take (char_traits_length [70, 79, 79, 0]) ∧
      content h1 ex_ci_pair.2.1 = content ex_ci_pair.1 ex_ci_pair.2.1 ∧
      content h1 ex_ci_pair.2.2 = content ex_ci_pair.1 ex_ci_pair.2.2)) :=
  ⟨⟨by decide, by decide, by decide⟩, by decide,
    ci_policy_compares_lowercased ex_ci_pair.1 ex_ci_pair.2.1 ex_ci_pair.2.2 [70, 79, 79, 0]
      (by decide) (by decide) (by decide)⟩

theorem toChar_small (n : Nat) (hn : n < 128) : toChar (n : Int) = (n : Int) := by
  unfold toChar
  omega

theorem toSize_natCast (n : Nat) (hn : n < 2 ^ 64) : toSize (n : Int) = n := by
  unfold toSize
  have : ((n : Int) % 2 ^ 64) = (n : Int) := Int.emod_eq_of_lt (by omega) (by exact_mod_cast hn)
  rw [this]
  exact Int.toNat_ofNat n

theorem mMaxCapacity_eq : mMaxCapacity = 4611686018427387903 := by decide

theorem le_newCapacity (s : basic_lazy_string) (n : Nat) : s.mCapacity ≤ newCapacity s n := by
  unfold newCapacity
  by_cases hgt : growTarget s.mCapacity n > s.mCapacity
  · rw [if_pos hgt]
    have := le_allocCap (growTarget s.mCapacity n)
    omega
  · rw [if_neg hgt]
    exact le_allocCap s.mCapacity

theorem request_le_growTarget (cap n : Nat) : n ≤ growTarget cap n := by
  unfold growTarget
  split <;> omega

theorem request_le_newCapacity (s : basic_lazy_string) (n : Nat) :
    n ≤ newCapacity s n := by
  unfold newCapacity
  have h1 := request_le_growTarget s.mCapacity n
  by_cases hgt : growTarget s.mCapacity n > s.mCapacity
  · rw [if_pos hgt]
    have := le_allocCap (growTarget s.mCapacity n)
    omega
  · rw [if_neg hgt]
    have := le_allocCap s.mCapacity
    omega

/-- A single-element append on a shared instance of size below 128 completes when the
doubled capacity is within the limit, and appends the element. -/
theorem mAppend_chr_shared_ok {h : Heap} {s : basic_lazy_string} (chr : Int)
    (hv : Valid h s) (hsh : mIsShared h s = true) (hsz : size s < 128)
    (hcap : 2 * capacity s + 1 ≤ mMaxCapacity) :
    ∃ h3 s3, mAppend_chr h s chr = Except.ok (h3, s3) ∧
      content h3 s3 = content h s ++ [chr] ∧ size s3 = size s + 1 := by
  simp only [size, capacity] at hsz hcap
  have hmax := mMaxCapacity_eq
  have hg : growTarget s.mCapacity ((s.mCapacity + 1) % 2 ^ 64) ≤ mMaxCapacity := by
    unfold growTarget
    split <;> omega
  obtain ⟨h1, d, e1, r, hl, ht, _⟩ := mReallocate_ok h s _ hv hg
  have hnc : s.mCapacity + 1 ≤ newCapacity s ((s.mCapacity + 1) % 2 ^ 64) := by
    have := request_le_newCapacity s ((s.mCapacity + 1) % 2 ^ 64)
    omega
  have hss := hv.2.2.2.1
  obtain ⟨h2, e2, u2⟩ := write_owned r.2.2.1 s.mSize chr (by omega)
  have r2 := realloc_upd r hv.1 u2
  obtain ⟨h3, e3, u3⟩ := mSetSize_owned
    (s := ⟨h.next, newCapacity s ((s.mCapacity + 1) % 2 ^ 64), s.mSize⟩) (h := h2)
    r2.2.2.1 (s.mSize + 1) (by simp; omega)
  have hlen : toChar (s.mSize : Int) = (s.mSize : Int) := toChar_small _ hsz
  have hts : toSize ((s.mSize : Int) + 1) = s.mSize + 1 := by
    have := toSize_natCast (s.mSize + 1) (by omega)
    simpa using this
  refine ⟨h3, ⟨h.next, newCapacity s ((s.mCapacity + 1) % 2 ^ 64), s.mSize + 1⟩,
    ?_, ?_, rfl⟩
  · unfold mAppend_chr
    simp only [hsh, or_true, if_true, size, capacity, e1, hlen, e2, hts]
    exact e3
  · rw [← ht]
    simp only [content, mGetBuf, upd_buf_same u3]
    rw [take_set_of_le _ _ _ _ (Nat.le_refl _)]
    apply List.ext_getElem?
    intro i
    rw [List.getElem?_take]
    by_cases hi : i < s.mSize
    · rw [if_pos (by omega), List.getElem?_set_ne (by omega),
        List.getElem?_append_left (by simp; omega), List.getElem?_take, if_pos hi]
    · by_cases hi2 : i = s.mSize
      · subst hi2
        rw [if_pos (by omega), List.getElem?_set_self (by omega),
          List.getElem?_append_right (by simp)]
        have hmin : (List.take s.mSize d).length = s.mSize := by
          rw [List.length_take]; omega
        rw [hmin, Nat.sub_self]
        rfl
      · rw [if_neg (by omega), List.getElem?_eq_none (by simp; omega)]

/-- An append of a run of `addSize` elements on a shared instance completes when the new
size stays below 128, and appends the run. -/
theorem mAppend_shared_ok {h : Heap} {s : basic_lazy_string} (str : Ptr) (addSize : Nat)
    (src : List Int) (hv : Valid h s) (hsh : mIsShared h s = true)
    (hsz : size s + addSize < 128) (hlen : addSize ≤ src.length)
    (hd : ∀ h1 d, Realloc h h1 s.mBuf d → str.deref h1 = src) :
    ∃ h3 s3, mAppend h s str addSize = Except.ok (h3, s3) ∧
      content h3 s3 = content h s ++ src.take addSize ∧ size s3 = size s + addSize := by
  by_cases hadd : addSize = 0
  · subst hadd
    exact ⟨h, s, mAppend_zero h s str, by simp, rfl⟩
  simp only [size] at hsz
  have hmax := mMaxCapacity_eq
  have hss := hv.2.2.2.1
  have hmod : (s.mSize + addSize) % 2 ^ 64 = s.mSize + addSize := Nat.mod_eq_of_lt (by omega)
  have hnew : toChar (((s.mSize + addSize : Nat)) : Int) = ((s.mSize + addSize : Nat) : Int) :=
    toChar_small _ hsz
  have hts : toSize (((s.mSize + addSize : Nat)) : Int) = s.mSize + addSize :=
    toSize_natCast _ (by omega)
  have hg : growTarget s.mCapacity (s.mSize + addSize) ≤ mMaxCapacity := by
    unfold growTarget
    split <;> omega
  obtain ⟨h1, d, e1, r, hl, ht, _⟩ := mReallocate_ok h s (s.mSize + addSize) hv hg
  have hnc := request_le_newCapacity s (s.mSize + addSize)
  obtain ⟨h2, e2, u2⟩ := copy_owned r.2.2.1 s.mSize src addSize hlen (by omega)
  have r2 := realloc_upd r hv.1 u2
  have hl1 : (List.take s.mSize d ++ List.take addSize src).length = s.mSize + addSize := by
    simp only [List.length_append, List.length_take]; omega
  have hl2 : (List.take s.mSize d ++ List.take addSize src
      ++ List.drop (s.mSize + addSize) d).length = d.length := by
    rw [List.length_append, hl1, List.length_drop]; omega
  obtain ⟨h3, e3, u3⟩ := mSetSize_owned
    (s := ⟨h.next, newCapacity s (s.mSize + addSize), s.mSize⟩) (h := h2)
    r2.2.2.1 (s.mSize + addSize) (by rw [hl2]; omega)
  refine ⟨h3, ⟨h.next, newCapacity s (s.mSize + addSize), s.mSize + addSize⟩, ?_, ?_, rfl⟩
  · unfold mAppend
    simp only [hadd, if_false, hsh, or_true, if_true, size, hmod, hnew, hts, e1,
      hd h1 d r, e2]
    exact e3
  · rw [← ht]
    simp only [content, mGetBuf, upd_buf_same u3]
    rw [take_set_of_le _ _ _ _ (Nat.le_refl _), List.take_left' hl1]

/-- Appends below size 128 on a shared buffer. For instances `s` and `t` sharing one
buffer, every append on `s` that completes
(`operator+=` with a single element, with raw content, or with another instance) leaves
`t` valid with its buffer and content unchanged; when something is appended, `s` ends with
a private buffer different from the buffer of `t`, so no element is written into the
buffer `t` holds. (An append that throws leaves the heap it started from.) The appends
do complete, with the appended content, whenever the new size is below 128 (and, for a
single element, the doubled capacity is within the limit). -/
theorem append_on_shared_keeps_other (h : Heap) (s t : basic_lazy_string)
    (hs : Valid h s) (ht : Valid h t) (_hst : s.mBuf = t.mBuf)
    (hsh : mIsShared h s = true) :
    (∀ chr r, operator_pluseq_chr h s chr = Except.ok r → AppendFrame h t 1 r) ∧
    (∀ str r, operator_pluseq_ptr h s str = Except.ok r →
      AppendFrame h t (char_traits_length str) r) ∧
    (∀ other r, operator_pluseq h s other = Except.ok r → AppendFrame h t (size other) r) ∧
    (∀ chr, size s < 128 → 2 * capacity s + 1 ≤ mMaxCapacity →
      ∃ r, operator_pluseq_chr h s chr = Except.ok r ∧
        content r.1 r.2 = content h s ++ [chr]) ∧
    (∀ str, size s + char_traits_length str < 128 →
      ∃ r, operator_pluseq_ptr h s str = Except.ok r ∧
        content r.1 r.2 = content h s ++ str.take (char_traits_length str)) ∧
    (∀ other, Valid h other → size s + size other < 128 →
      ∃ r, operator_pluseq h s other = Except.ok r ∧
        content r.1 r.2 = content h s ++ content h other) := by
  have key : ∀ (str : Ptr) (n : Nat) (r : Heap × basic_lazy_string),
      mAppend h s str n = Except.ok r → AppendFrame h t n r := by
    intro str n r e
    by_cases hn : n = 0
    · subst hn
      rw [mAppend_zero] at e
      simp only [Except.ok.injEq] at e
      subst e
      exact ⟨ht, rfl, rfl, fun hne => absurd rfl hne⟩
    · obtain ⟨h3, s3⟩ := r
      obtain ⟨d3, r3, hb⟩ := mAppend_shared_inv hs hsh hn e
      exact appendFrame_of_realloc ht hsh r3 hb n
  have hc : (h.blocks s.mBuf).useCount ≠ 1 := by simpa [mIsShared] using hsh
  refine ⟨?_, ?_, ?_, ?_, ?_, ?_⟩
  · rintro chr ⟨h3, s3⟩ e
    obtain ⟨d3, r3, hb⟩ := mAppend_chr_shared_inv hs hsh e
    exact appendFrame_of_realloc ht hsh r3 hb 1
  · intro str r e
    exact key _ _ r e
  · intro other r e
    exact key _ _ r e
  · intro chr hsz hcap
    obtain ⟨h3, s3, e, hcont, _⟩ := mAppend_chr_shared_ok chr hs hsh hsz hcap
    exact ⟨(h3, s3), e, hcont⟩
  · intro str hsz
    obtain ⟨h3, s3, e, hcont, _⟩ := mAppend_shared_ok (Ptr.raw str) (char_traits_length str)
      str hs hsh hsz (char_traits_length_le str) (fun _ _ _ => rfl)
    exact ⟨(h3, s3), e, hcont⟩
  · intro other ho hsz
    have hol : size other ≤ (h.buf other.mBuf).length := by
      have := ho.2.2.1
      have := ho.2.2.2.1
      simp only [size]
      omega
    obtain ⟨h3, s3, e, hcont, _⟩ := mAppend_shared_ok (c_str other) (size other)
      (h.buf other.mBuf) hs hsh hsz hol
      (fun h1 d r => realloc_buf_old r ho.1 (Or.inr hc))
    exact ⟨(h3, s3), e, hcont⟩

/-- Appends at `foo = "12345"; bar = foo;`: the three appends `foo += 'x'`,
`foo += "ab"` and `foo += bar` complete and leave the content of `bar` as it was. -/
theorem append_on_shared_keeps_other_witness :
    (Valid ex_shared.1 ex_shared.2 ∧ mIsShared ex_shared.1 ex_shared.2 = true) ∧
    (contentAfter (operator_pluseq_chr ex_shared.1 ex_shared.2 120)
        = some [49, 50, 51, 52, 53, 120] ∧
      contentOfAfter (operator_pluseq_chr ex_shared.1 ex_shared.2 120) ex_shared.2
        = some [49, 50, 51, 52, 53] ∧
      contentAfter (operator_pluseq_ptr ex_shared.1 ex_shared.2 [97, 98, 0])
        = some [49, 50, 51, 52, 53, 97, 98] ∧
      contentOfAfter (operator_pluseq_ptr ex_shared.1 ex_shared.2 [97, 98, 0]) ex_shared.2
        = some [49, 50, 51, 52, 53] ∧
      contentAfter (operator_pluseq ex_shared.1 ex_shared.2 ex_shared.2)
        = some [49, 50, 51, 52, 53, 49, 50, 51, 52, 53] ∧
      contentOfAfter (operator_pluseq ex_shared.1 ex_shared.2 ex_shared.2) ex_shared.2
        = some [49, 50, 51, 52, 53]) ∧
    ((∀ chr r, operator_pluseq_chr ex_shared.1 ex_shared.2 chr = Except.ok r →
        AppendFrame ex_shared.1 ex_shared.2 1 r) ∧
      (∀ str r, operator_pluseq_ptr ex_shared.1 ex_shared.2 str = Except.ok r →
        AppendFrame ex_shared.1 ex_shared.2 (char_traits_length str) r) ∧
      (∀ other r, operator_pluseq ex_shared.1 ex_shared.2 other = Except.ok r →
        AppendFrame ex_shared.1 ex_shared.2 (size other) r) ∧
      (∀ chr, size ex_shared.2 < 128 → 2 * capacity ex_shared.2 + 1 ≤ mMaxCapacity →
        ∃ r, operator_pluseq_chr ex_shared.1 ex_shared.2 chr = Except.ok r ∧
          content r.1 r.2 = content ex_shared.1 ex_shared.2 ++ [chr]) ∧
      (∀ str, size ex_shared.2 + char_traits_length str < 128 →
        ∃ r, operator_pluseq_ptr ex_shared.1 ex_shared.2 str = Except.ok r ∧
          content r.1 r.2
            = content ex_shared.1 ex_shared.2 ++ str.take (char_traits_length str)) ∧
      (∀ other, Valid ex_shared.1 other → size ex_shared.2 + size other < 128 →
        ∃ r, operator_pluseq ex_shared.1 ex_shared.2 other = Except.ok r ∧
          content r.1 r.2 = content ex_shared.1 ex_shared.2 ++ content ex_shared.1 other)) :=
  ⟨⟨by decide, by decide⟩, by decide,
    append_on_shared_keeps_other ex_shared.1 ex_shared.2 ex_shared.2
      (by decide) (by decide) rfl (by decide)⟩

/-- A store through the pointer of any live block, within its array. -/
theorem write_spec (h : Heap) (k i : Nat) (v : Int) (hi : i < (h.buf k).length) :
    ∃ h1, h.write k (i : Int) v = Except.ok h1 ∧ h1.buf k = (h.buf k).set i v ∧
      h1.next = h.next ∧ (∀ j, (h1.blocks j).useCount = (h.blocks j).useCount) ∧
      (∀ j, (h1.buf j).length = (h.buf j).length) := by
  refine ⟨h.setBuf k ((h.buf k).set i v), ?_, ?_, ?_, ?_, ?_⟩
  · simp [Heap.write, hi]
  · unfold Heap.setBuf Heap.buf
    cases hst : (h.blocks k).store with
    | static_null => simp [hst]
    | owned d => simp [hst, setBlock]
    | freed => simp [Heap.buf, hst] at hi
  · unfold Heap.setBuf
    cases hst : (h.blocks k).store <;> simp
  · intro j
    unfold Heap.setBuf
    cases hst : (h.blocks k).store with
    | static_null => simp
    | owned d =>
      simp only [setBlock]
      by_cases hj : j = k
      · simp [hj]
      · simp [hj]
    | freed => simp
  · intro j
    unfold Heap.setBuf
    cases hst : (h.blocks k).store with
    | static_null =>
      simp only [Heap.buf]
      cases hj : (h.blocks j).store with
      | static_null => simp [Heap.buf, hst]
      | owned d => simp
      | freed => simp
    | owned d =>
      simp only [Heap.buf, setBlock]
      by_cases hj : j = k
      · subst hj; simp [hst]
      · simp [hj]
    | freed => simp

/-- The member `mSetSize` on any live block, within its array. -/
theorem mSetSize_spec (h : Heap) (s : basic_lazy_string) (n : Nat)
    (hn : n < (h.buf s.mBuf).length) :
    ∃ h1, mSetSize h s n = Except.ok (h1, ⟨s.mBuf, s.mCapacity, n⟩) ∧
      h1.buf s.mBuf = (h.buf s.mBuf).set n 0 ∧ h1.next = h.next ∧
      (∀ j, (h1.blocks j).useCount = (h.blocks j).useCount) ∧
      (∀ j, (h1.buf j).length = (h.buf j).length) := by
  obtain ⟨h1, e, hb, hx, hc, hl⟩ := write_spec h s.mBuf n 0 hn
  exact ⟨h1, by simp [mSetSize, e], hb, hx, hc, hl⟩

/-- The heap after the default constructor: one more control block on `mNull`. -/
theorem ctor_default_spec (h : Heap) :
    (ctor_default h).2 = ⟨h.next, 0, 0⟩ ∧ (ctor_default h).1.mNull = h.mNull ∧
    (ctor_default h).1.next = h.next + 1 ∧
    (ctor_default h).1.blocks h.next = ⟨Store.static_null, 1⟩ ∧
    ∀ j, j ≠ h.next → (ctor_default h).1.blocks j = h.blocks j := by
  refine ⟨rfl, rfl, rfl, ?_, ?_⟩
  · simp [ctor_default, Heap.alloc, setBlock]
  · intro j hj
    simp [ctor_default, Heap.alloc, setBlock, hj]

/-- C11: for a valid instance `s` sharing its buffer with another instance `t`,
`s.clear()` completes; afterwards `s` has size 0 and capacity 0 and is a valid, empty
string on the static empty buffer, while `t` is still valid with its buffer and content
unchanged (its size is a member of `t`, which the call does not receive). -/
theorem clear_shared_gives_empty (h : Heap) (s t : basic_lazy_string)
    (hn : NullOk h) (hs : Valid h s) (ht : Valid h t) (hst : s.mBuf = t.mBuf)
    (hsh : mIsShared h s = true) :
    ∃ h1 s1, clear h s = Except.ok (h1, s1) ∧
      size s1 = 0 ∧ capacity s1 = 0 ∧ empty s1 = true ∧
      (h1.blocks s1.mBuf).store = Store.static_null ∧ Valid h1 s1 ∧
      Valid h1 t ∧ mGetBuf h1 t = mGetBuf h t ∧ content h1 t = content h t := by
  obtain ⟨d2, dn, dx, db, dold⟩ := ctor_default_spec h
  have hc : (h.blocks s.mBuf).useCount ≠ 1 := by simpa [mIsShared] using hsh
  have hsb : s.mBuf ≠ h.next := Nat.ne_of_lt hs.1
  have htb : t.mBuf ≠ h.next := Nat.ne_of_lt ht.1
  have e : clear h s = Except.ok ((ctor_default h).1.release s.mBuf, ⟨h.next, 0, 0⟩) := by
    simp only [clear, hsh, if_true, swap, dtor, d2]
  have hnew : ((ctor_default h).1.release s.mBuf).blocks h.next = ⟨Store.static_null, 1⟩ := by
    rw [release_blocks, if_neg (Ne.symm hsb), db]
  have hold : ((ctor_default h).1.release s.mBuf).blocks t.mBuf
      = ⟨(h.blocks t.mBuf).store, (h.blocks t.mBuf).useCount - 1⟩ := by
    rw [release_blocks, ← hst, if_pos rfl, dold _ hsb, if_neg hc]
  have hnull : ((ctor_default h).1.release s.mBuf).mNull = h.mNull := by
    rw [release_mNull, dn]
  have hbt : ((ctor_default h).1.release s.mBuf).buf t.mBuf = h.buf t.mBuf := by
    simp only [Heap.buf, hold, hnull]
  refine ⟨_, _, e, rfl, rfl, rfl, ?_, ?_, ?_, hbt, ?_⟩
  · simp only [hnew]
  · refine ⟨?_, ?_, ?_, Nat.le_refl _, Nat.zero_le _, Or.inl rfl⟩
    · simp only [release_next, dx]; omega
    · simp only [hnew]; omega
    · simp only [Heap.buf, hnew, hnull]
      rw [hn]; rfl
  · refine ⟨?_, ?_, ?_, ht.2.2.2⟩
    · rw [release_next, dx]; have := ht.1; omega
    · rw [hold]
      have := ht.2.1
      rw [← hst] at this
      simp only [← hst]
      omega
    · rw [hbt]; exact ht.2.2.1
  · simp only [content, mGetBuf, hbt]

/-- C11 at `foo = "12345"; bar = foo; foo.clear()`: `foo` has capacity 0 and `bar` still
holds "12345". -/
theorem clear_shared_gives_empty_witness :
    (NullOk ex_shared.1 ∧ Valid ex_shared.1 ex_shared.2 ∧
      mIsShared ex_shared.1 ex_shared.2 = true) ∧
    (capacityAfter (clear ex_shared.1 ex_shared.2) = some 0 ∧
      contentOfAfter (clear ex_shared.1 ex_shared.2) ex_shared.2
        = some [49, 50, 51, 52, 53]) ∧
    ∃ h1 s1, clear ex_shared.1 ex_shared.2 = Except.ok (h1, s1) ∧
      size s1 = 0 ∧ capacity s1 = 0 ∧ empty s1 = true ∧
      (h1.blocks s1.mBuf).store = Store.static_null ∧ Valid h1 s1 ∧
      Valid h1 ex_shared.2 ∧ mGetBuf h1 ex_shared.2 = mGetBuf ex_shared.1 ex_shared.2 ∧
      content h1 ex_shared.2 = content ex_shared.1 ex_shared.2 :=
  ⟨⟨by decide, by decide, by decide⟩, by decide,
    clear_shared_gives_empty ex_shared.1 ex_shared.2 ex_shared.2
      (by decide) (by decide) (by decide) rfl (by decide)⟩

/-- C12: for a valid instance `s` whose buffer is not shared, `s.clear()` completes;
afterwards `size() == 0`, `empty()` is true, `capacity()` is what it was before the call
and `s` holds the same buffer (no reallocation), still valid and unshared. -/
theorem clear_unshared_keeps_capacity (h : Heap) (s : basic_lazy_string)
    (hs : Valid h s) (hsh : mIsShared h s = false) :
    ∃ h1 s1, clear h s = Except.ok (h1, s1) ∧
      size s1 = 0 ∧ empty s1 = true ∧ capacity s1 = capacity s ∧ s1.mBuf = s.mBuf ∧
      Valid h1 s1 ∧ mIsShared h1 s1 = false ∧ content h1 s1 = [] := by
  obtain ⟨hb, hcnt, hlen, hsz, hmax, hmin⟩ := hs
  obtain ⟨h1, e, hbuf, hx, hc, hl⟩ := mSetSize_spec h s 0 (by omega)
  refine ⟨h1, ⟨s.mBuf, s.mCapacity, 0⟩, ?_, rfl, rfl, rfl, rfl, ?_, ?_, ?_⟩
  · simp only [clear, hsh]
    exact e
  · refine ⟨?_, ?_, ?_, Nat.zero_le _, hmax, hmin⟩
    · simp only [hx]; exact hb
    · simp only [hc]; exact hcnt
    · simp only [hl]; exact hlen
  · simp only [mIsShared, hc] at hsh ⊢
    exact hsh
  · simp [content]

/-- C12 at `foo = "12345"; foo.clear()`: capacity stays 31 and `foo` is empty. -/
theorem clear_unshared_keeps_capacity_witness :
    (Valid ex_single.1 ex_single.2 ∧ mIsShared ex_single.1 ex_single.2 = false) ∧
    (capacityAfter (clear ex_single.1 ex_single.2) = some 31 ∧
      sizeAfter (clear ex_single.1 ex_single.2) = some 0) ∧
    ∃ h1 s1, clear ex_single.1 ex_single.2 = Except.ok (h1, s1) ∧
      size s1 = 0 ∧ empty s1 = true ∧ capacity s1 = capacity ex_single.2 ∧
      s1.mBuf = ex_single.2.mBuf ∧
      Valid h1 s1 ∧ mIsShared h1 s1 = false ∧ content h1 s1 = [] :=
  ⟨⟨by decide, by decide⟩, by decide,
    clear_unshared_keeps_capacity ex_single.1 ex_single.2 (by decide) (by decide)⟩

/-- A valid instance stays valid, with its buffer, when a default instance is
constructed. -/
theorem ctor_default_frame (h : Heap) (t : basic_lazy_string) (ht : Valid h t) :
    Valid (ctor_default h).1 t ∧ mGetBuf (ctor_default h).1 t = mGetBuf h t := by
  obtain ⟨_, dn, dx, _, dold⟩ := ctor_default_spec h
  have hne : t.mBuf ≠ h.next := Nat.ne_of_lt ht.1
  have hb : (ctor_default h).1.buf t.mBuf = h.buf t.mBuf := buf_congr dn (dold _ hne)
  refine ⟨⟨?_, ?_, ?_, ht.2.2.2⟩, hb⟩
  · rw [dx]; exact Nat.lt_succ_of_lt ht.1
  · rw [dold _ hne]; exact ht.2.1
  · rw [hb]; exact ht.2.2.1

/-- C13: move construction from a valid instance `src`: afterwards `src` is a valid
empty instance (`empty()` true, size 0, capacity 0) and the new instance `dst` is valid
with the original size, capacity and content of `src` (and its buffer). -/
theorem move_ctor_empties_source (h : Heap) (src : basic_lazy_string)
    (hn : NullOk h) (hs : Valid h src) :
    (empty (ctor_move h src).2.2 = true ∧ size (ctor_move h src).2.2 = 0 ∧
      capacity (ctor_move h src).2.2 = 0 ∧ Valid (ctor_move h src).1 (ctor_move h src).2.2) ∧
    (size (ctor_move h src).2.1 = size src ∧ capacity (ctor_move h src).2.1 = capacity src ∧
      (ctor_move h src).2.1.mBuf = src.mBuf ∧
      content (ctor_move h src).1 (ctor_move h src).2.1 = content h src ∧
      Valid (ctor_move h src).1 (ctor_move h src).2.1) := by
  obtain ⟨d2, dn, dx, db, _⟩ := ctor_default_spec h
  obtain ⟨hv, hb⟩ := ctor_default_frame h src hs
  have e1 : (ctor_move h src).2.1 = src := rfl
  have e2 : (ctor_move h src).2.2 = ⟨h.next, 0, 0⟩ := rfl
  have e3 : (ctor_move h src).1 = (ctor_default h).1 := rfl
  rw [e1, e2, e3]
  refine ⟨⟨rfl, rfl, rfl, ?_⟩, rfl, rfl, rfl, ?_, hv⟩
  · refine ⟨?_, ?_, ?_, Nat.le_refl _, Nat.zero_le _, Or.inl rfl⟩
    · simp only [dx]; omega
    · simp only [db]; omega
    · simp only [Heap.buf, db, dn]
      rw [hn]; rfl
  · simp only [content, hb]

/-- C13 at `foo = "12345"; lazy_string bar(std::move(foo));`. -/
theorem move_ctor_empties_source_witness :
    (NullOk ex_single.1 ∧ Valid ex_single.1 ex_single.2) ∧
    (content (ctor_move ex_single.1 ex_single.2).1 (ctor_move ex_single.1 ex_single.2).2.1
        = [49, 50, 51, 52, 53] ∧
      content (ctor_move ex_single.1 ex_single.2).1 (ctor_move ex_single.1 ex_single.2).2.2
        = []) ∧
    ((empty (ctor_move ex_single.1 ex_single.2).2.2 = true ∧
      size (ctor_move ex_single.1 ex_single.2).2.2 = 0 ∧
      capacity (ctor_move ex_single.1 ex_single.2).2.2 = 0 ∧
      Valid (ctor_move ex_single.1 ex_single.2).1 (ctor_move ex_single.1 ex_single.2).2.2) ∧
    (size (ctor_move ex_single.1 ex_single.2).2.1 = size ex_single.2 ∧
      capacity (ctor_move ex_single.1 ex_single.2).2.1 = capacity ex_single.2 ∧
      (ctor_move ex_single.1 ex_single.2).2.1.mBuf = ex_single.2.mBuf ∧
      content (ctor_move ex_single.1 ex_single.2).1 (ctor_move ex_single.1 ex_single.2).2.1
        = content ex_single.1 ex_single.2 ∧
      Valid (ctor_move ex_single.1 ex_single.2).1 (ctor_move ex_single.1 ex_single.2).2.1)) :=
  ⟨⟨by decide, by decide⟩, by decide,
    move_ctor_empties_source ex_single.1 ex_single.2 (by decide) (by decide)⟩

/-- C14, as stated, fails at `foo = "foo"; bar = "bar"; bar = std::move(foo);`: the
source `foo` is not empty afterwards, it holds "bar". -/
theorem move_assign_source_not_empty :
    Valid ex_foo_bar.1 ex_foo_bar.2.1 ∧ Valid ex_foo_bar.1 ex_foo_bar.2.2 ∧
    empty (operator_assign_move ex_foo_bar.1 ex_foo_bar.2.2 ex_foo_bar.2.1).2.2 = false ∧
    content (operator_assign_move ex_foo_bar.1 ex_foo_bar.2.2 ex_foo_bar.2.1).1
      (operator_assign_move ex_foo_bar.1 ex_foo_bar.2.2 ex_foo_bar.2.1).2.2 = [98, 97, 114] ∧
    content (operator_assign_move ex_foo_bar.1 ex_foo_bar.2.2 ex_foo_bar.2.1).1
      (operator_assign_move ex_foo_bar.1 ex_foo_bar.2.2 ex_foo_bar.2.1).2.1
      = [102, 111, 111] := by
  decide

/-- C14 as amended: for valid instances `dst` and `src`, after `dst = std::move(src)` the
heap is untouched, `dst` is valid and holds the original content of `src`, and `src` is
valid and holds the original content of `dst`; `src` is empty exactly when `dst` was
empty before the assignment. -/
theorem move_assign_source_gets_destination (h : Heap) (dst src : basic_lazy_string)
    (hd : Valid h dst) (hs : Valid h src) :
    (operator_assign_move h dst src).1 = h ∧
    Valid (operator_assign_move h dst src).1 (operator_assign_move h dst src).2.1 ∧
    content (operator_assign_move h dst src).1 (operator_assign_move h dst src).2.1
      = content h src ∧
    Valid (operator_assign_move h dst src).1 (operator_assign_move h dst src).2.2 ∧
    content (operator_assign_move h dst src).1 (operator_assign_move h dst src).2.2
      = content h dst ∧
    (empty (operator_assign_move h dst src).2.2 = true ↔ empty dst = true) := by
  cases dst
  cases src
  exact ⟨rfl, hs, rfl, hd, rfl, Iff.rfl⟩

/-- C14 as amended, at `foo = "foo"; bar = "bar"; bar = std::move(foo)`: `bar` holds
"foo" and `foo` holds "bar". -/
theorem move_assign_source_gets_destination_witness :
    (Valid ex_foo_bar.1 ex_foo_bar.2.2 ∧ Valid ex_foo_bar.1 ex_foo_bar.2.1) ∧
    ((operator_assign_move ex_foo_bar.1 ex_foo_bar.2.2 ex_foo_bar.2.1).1 = ex_foo_bar.1 ∧
    Valid (operator_assign_move ex_foo_bar.1 ex_foo_bar.2.2 ex_foo_bar.2.1).1
      (operator_assign_move ex_foo_bar.1 ex_foo_bar.2.2 ex_foo_bar.2.1).2.1 ∧
    content (operator_assign_move ex_foo_bar.1 ex_foo_bar.2.2 ex_foo_bar.2.1).1
      (operator_assign_move ex_foo_bar.1 ex_foo_bar.2.2 ex_foo_bar.2.1).2.1
      = content ex_foo_bar.1 ex_foo_bar.2.1 ∧
    Valid (operator_assign_move ex_foo_bar.1 ex_foo_bar.2.2 ex_foo_bar.2.1).1
      (operator_assign_move ex_foo_bar.1 ex_foo_bar.2.2 ex_foo_bar.2.1).2.2 ∧
    content (operator_assign_move ex_foo_bar.1 ex_foo_bar.2.2 ex_foo_bar.2.1).1
      (operator_assign_move ex_foo_bar.1 ex_foo_bar.2.2 ex_foo_bar.2.1).2.2
      = content ex_foo_bar.1 ex_foo_bar.2.2 ∧
    (empty (operator_assign_move ex_foo_bar.1 ex_foo_bar.2.2 ex_foo_bar.2.1).2.2 = true ↔
      empty ex_foo_bar.2.2 = true)) :=
  ⟨⟨by decide, by decide⟩,
    move_assign_source_gets_destination ex_foo_bar.1 ex_foo_bar.2.2 ex_foo_bar.2.1
      (by decide) (by decide)⟩

/-- C15: move assignment exchanges the two instances: after `dst = std::move(src)`,
`dst` has the previous members (buffer, size, capacity, hence content) of `src` and
`src` those of `dst`, the heap is untouched, and the effect is that of
`swap(dst, src)`. -/
theorem move_assign_is_swap (h : Heap) (dst src : basic_lazy_string) :
    (operator_assign_move h dst src).2.1 = src ∧
    (operator_assign_move h dst src).2.2 = dst ∧
    (operator_assign_move h dst src).1 = h ∧
    ((operator_assign_move h dst src).2.1, (operator_assign_move h dst src).2.2)
      = swap dst src ∧
    size (operator_assign_move h dst src).2.1 = size src ∧
    capacity (operator_assign_move h dst src).2.1 = capacity src ∧
    content h (operator_assign_move h dst src).2.1 = content h src ∧
    size (operator_assign_move h dst src).2.2 = size dst ∧
    capacity (operator_assign_move h dst src).2.2 = capacity dst ∧
    content h (operator_assign_move h dst src).2.2 = content h dst := by
  cases dst
  cases src
  exact ⟨rfl, rfl, rfl, rfl, rfl, rfl, rfl, rfl, rfl, rfl⟩

theorem ex_huge_array_length : ex_huge_array.length = 2 ^ 61 + 1 := by
  unfold ex_huge_array
  exact List.length_replicate _ _

theorem ex_huge_valid : Valid ex_huge.1 ex_huge.2 := by
  have hm := mMaxCapacity_eq
  have hb : ex_huge.1.blocks 0 = ⟨Store.owned ex_huge_array, 1⟩ := rfl
  have h1 : ex_huge.2.mBuf = 0 := rfl
  have h2 : ex_huge.2.mCapacity = 2 ^ 61 := rfl
  have h3 : ex_huge.2.mSize = 0 := rfl
  have h4 : ex_huge.1.next = 1 := rfl
  refine ⟨?_, ?_, ?_, ?_, ?_, ?_⟩
  · rw [h1, h4]; omega
  · rw [h1, hb]
  · rw [h1, h2, buf_of_block hb, ex_huge_array_length]
  · rw [h3]; exact Nat.zero_le _
  · rw [h2, hm]; norm_num
  · right; rw [h2]; unfold mMinCapacity sizeof_value_type; norm_num

theorem newCapacity_le_max {h : Heap} {s : basic_lazy_string} {n : Nat} (hv : Valid h s)
    (hg : growTarget s.mCapacity n ≤ mMaxCapacity) : newCapacity s n ≤ mMaxCapacity := by
  unfold newCapacity
  apply allocCap_le_max
  split
  · exact hg
  · exact hv.2.2.2.2.1

/-- The instance after a reallocation is valid, unshared, with the content kept. -/
theorem mReallocate_valid {h h1 : Heap} {s : basic_lazy_string} {n : Nat} {d : List Int}
    (hv : Valid h s) (hg : growTarget s.mCapacity n ≤ mMaxCapacity)
    (r : Realloc h h1 s.mBuf d) (hl : d.length = newCapacity s n + 1)
    (ht : d.take s.mSize = content h s) :
    Valid h1 ⟨h.next, newCapacity s n, s.mSize⟩ ∧
    mIsShared h1 ⟨h.next, newCapacity s n, s.mSize⟩ = false ∧
    content h1 ⟨h.next, newCapacity s n, s.mSize⟩ = content h s := by
  have hb : h1.buf h.next = d := buf_of_block r.2.2.1
  refine ⟨⟨?_, ?_, ?_, ?_, newCapacity_le_max hv hg, Or.inr (min_le_allocCap _)⟩, ?_, ?_⟩
  · simp only [r.2.1]; omega
  · simp only [r.2.2.1]; omega
  · simp only [hb, hl]
  · have := le_newCapacity s n
    have := hv.2.2.2.1
    simp only
    omega
  · simp [mIsShared, r.2.2.1]
  · simp only [content, mGetBuf, hb]
    exact ht

/-- C16, as stated, fails at two inputs: `foo = "12345"; bar = foo; foo.reserve(0)`
leaves `foo` on the shared buffer, and `s.reserve(2 ^ 61 + 1)` on an instance of capacity
`2 ^ 61` throws the size-limit error although the request is below the maximum
capacity. -/
theorem reserve_not_always_private :
    (Valid ex_shared.1 ex_shared.2 ∧ 0 ≤ mMaxCapacity ∧
      sharedAfter (reserve ex_shared.1 ex_shared.2 0) = some true) ∧
    (Valid ex_huge.1 ex_huge.2 ∧ 2 ^ 61 + 1 ≤ mMaxCapacity ∧
      reserve ex_huge.1 ex_huge.2 (2 ^ 61 + 1) = Except.error Err.size_limit_exceeded) := by
  refine ⟨⟨by decide, by decide, by decide⟩, ex_huge_valid, by decide, ?_⟩
  have h2 : ex_huge.2.mCapacity = 2 ^ 61 := rfl
  have hc : (2 ^ 61 + 1 > capacity ex_huge.2 ∨
      (mIsShared ex_huge.1 ex_huge.2 = true ∧ 2 ^ 61 + 1 ≠ 0)) := by
    left; unfold capacity; rw [h2]; omega
  unfold reserve
  rw [if_pos hc]
  apply mReallocate_err
  · exact ex_huge_valid.2.2.2.2.1
  · have hm := mMaxCapacity_eq
    rw [h2, hm]
    unfold growTarget
    norm_num

/-- C16 as amended: for a valid instance `s` and a request `n`: when the growth target
(twice the capacity if `capacity < n < 2 * capacity`, else `n`) does not exceed the
maximum capacity, `s.reserve(n)` completes with a valid instance of capacity at least `n`
and unchanged size and content; a reallocation (a new buffer) happens exactly when
`n > capacity` or (the buffer is shared and `n != 0`); afterwards the buffer is unshared
unless `s` was shared and `n == 0`, in which case nothing changes. When a reallocation
is due and the growth target exceeds the maximum capacity, the call throws the
size-limit error. -/
theorem reserve_amended (h : Heap) (s : basic_lazy_string) (n : Nat) (hs : Valid h s) :
    (growTarget (capacity s) n ≤ mMaxCapacity →
      ∃ h1 s1, reserve h s n = Except.ok (h1, s1) ∧ Valid h1 s1 ∧
        n ≤ capacity s1 ∧ size s1 = size s ∧ content h1 s1 = content h s ∧
        (s1.mBuf ≠ s.mBuf ↔ (n > capacity s ∨ (mIsShared h s = true ∧ n ≠ 0))) ∧
        ((mIsShared h s = false ∨ n ≠ 0) → mIsShared h1 s1 = false) ∧
        ((mIsShared h s = true ∧ n = 0) → h1 = h ∧ s1 = s)) ∧
    ((n > capacity s ∨ (mIsShared h s = true ∧ n ≠ 0)) →
      ¬ growTarget (capacity s) n ≤ mMaxCapacity →
      reserve h s n = Except.error Err.size_limit_exceeded) := by
  constructor
  · intro hg
    simp only [capacity] at hg
    by_cases hc : (n > capacity s ∨ (mIsShared h s = true ∧ n ≠ 0))
    · obtain ⟨h1, d, e, r, hl, ht, _⟩ := mReallocate_ok h s n hs hg
      obtain ⟨v, hu, hcont⟩ := mReallocate_valid hs hg r hl ht
      refine ⟨h1, _, ?_, v, request_le_newCapacity s n, rfl, hcont, ?_, fun _ => hu, ?_⟩
      · unfold reserve
        rw [if_pos hc]
        exact e
      · constructor
        · intro _; exact hc
        · intro _; exact Ne.symm (Nat.ne_of_lt hs.1)
      · rintro ⟨hsh, hn0⟩
        rcases hc with hgt | ⟨_, hne⟩
        · simp only [capacity] at hgt; omega
        · exact absurd hn0 hne
    · refine ⟨h, s, ?_, hs, ?_, rfl, rfl, ?_, ?_, fun _ => ⟨rfl, rfl⟩⟩
      · unfold reserve
        rw [if_neg hc]
      · simp only [not_or] at hc
        exact Nat.le_of_not_lt hc.1
      · constructor
        · intro hne; exact absurd rfl hne
        · intro hcc; exact absurd hcc hc
      · intro hor
        simp only [not_or, not_and_or] at hc
        rcases hor with hu | hne
        · exact hu
        · rcases hc.2 with hns | hn0
          · simpa using hns
          · exact absurd hne hn0
  · intro hc hg
    unfold reserve
    rw [if_pos hc]
    exact mReallocate_err h s n hs.2.2.2.2.1 hg

/-- C16 as amended, at `foo = "12345"; bar = foo; foo.reserve(40)`: the capacity becomes
62, the content is kept and `foo` is no longer shared. -/
theorem reserve_amended_witness :
    Valid ex_shared.1 ex_shared.2 ∧
    (capacityAfter (reserve ex_shared.1 ex_shared.2 40) = some 62 ∧
      contentAfter (reserve ex_shared.1 ex_shared.2 40) = some [49, 50, 51, 52, 53] ∧
      sharedAfter (reserve ex_shared.1 ex_shared.2 40) = some false) ∧
    ((growTarget (capacity ex_shared.2) 40 ≤ mMaxCapacity →
      ∃ h1 s1, reserve ex_shared.1 ex_shared.2 40 = Except.ok (h1, s1) ∧ Valid h1 s1 ∧
        40 ≤ capacity s1 ∧ size s1 = size ex_shared.2 ∧
        content h1 s1 = content ex_shared.1 ex_shared.2 ∧
        (s1.mBuf ≠ ex_shared.2.mBuf ↔
          (40 > capacity ex_shared.2 ∨ (mIsShared ex_shared.1 ex_shared.2 = true ∧ 40 ≠ 0))) ∧
        ((mIsShared ex_shared.1 ex_shared.2 = false ∨ 40 ≠ 0) → mIsShared h1 s1 = false) ∧
        ((mIsShared ex_shared.1 ex_shared.2 = true ∧ 40 = 0) →
          h1 = ex_shared.1 ∧ s1 = ex_shared.2)) ∧
    ((40 > capacity ex_shared.2 ∨ (mIsShared ex_shared.1 ex_shared.2 = true ∧ 40 ≠ 0)) →
      ¬ growTarget (capacity ex_shared.2) 40 ≤ mMaxCapacity →
      reserve ex_shared.1 ex_shared.2 40 = Except.error Err.size_limit_exceeded)) :=
  ⟨by decide, by decide, reserve_amended ex_shared.1 ex_shared.2 40 (by decide)⟩

/-- C17: for a valid instance `s` (shared or not) and `i < s.size()`, reading `s[i]`
through the const operator and through the proxy of the non-const operator both return
the element stored at `i`, and the heap and the members of `s` after the read are the
ones before it: size, capacity, content and sharing status of `s` and of every other
string are unchanged, and `s` keeps its buffer (no privatization). -/
theorem read_never_privatizes (h : Heap) (s : basic_lazy_string) (i : Nat)
    (hv : Valid h s) (hi : i < size s) :
    ∃ v, (content h s)[i]? = some v ∧
      operator_index_const h s i = Except.ok v ∧
      operator_index s i = Except.ok ⟨i⟩ ∧ (⟨i⟩ : char_proxy).value h s = Except.ok v ∧
      index_read_const h s i = Except.ok (h, s, v) ∧
      index_read h s i = Except.ok (h, s, v) ∧
      (∀ h1 s1 w, (index_read_const h s i = Except.ok (h1, s1, w) ∨
          index_read h s i = Except.ok (h1, s1, w)) →
        w = v ∧ size s1 = size s ∧ capacity s1 = capacity s ∧ s1.mBuf = s.mBuf ∧
        content h1 s1 = content h s ∧ mIsShared h1 s1 = mIsShared h s ∧
        ∀ t, content h1 t = content h t ∧ mIsShared h1 t = mIsShared h t) := by
  simp only [size] at hi
  obtain ⟨v, ev, hc⟩ := operator_index_const_ok hv hi
  have hr : mCheckRange s i = Except.ok () := mCheckRange_ok hi
  have ep : operator_index s i = Except.ok ⟨i⟩ := by simp only [operator_index, hr]
  have epv : (⟨i⟩ : char_proxy).value h s = Except.ok v := by
    simp only [operator_index_const, hr] at ev
    exact ev
  have e1 : index_read_const h s i = Except.ok (h, s, v) := by
    simp only [index_read_const, ev]
  have e2 : index_read h s i = Except.ok (h, s, v) := by
    simp only [index_read, ep, epv]
  refine ⟨v, hc, ev, ep, epv, e1, e2, ?_⟩
  intro h1 s1 w hor
  rw [e1, e2] at hor
  have hh : h1 = h ∧ s1 = s ∧ w = v := by
    rcases hor with e | e
    · simp only [Except.ok.injEq, Prod.mk.injEq] at e
      exact ⟨e.1.symm, e.2.1.symm, e.2.2.symm⟩
    · simp only [Except.ok.injEq, Prod.mk.injEq] at e
      exact ⟨e.1.symm, e.2.1.symm, e.2.2.symm⟩
  obtain ⟨rfl, rfl, rfl⟩ := hh
  exact ⟨rfl, rfl, rfl, rfl, rfl, rfl, fun _ => ⟨rfl, rfl⟩⟩

/-- C17 at `foo = "12345"; bar = foo;` and index 2: both reads return `'3'` and `foo`
is still shared. -/
theorem read_never_privatizes_witness :
    (Valid ex_shared.1 ex_shared.2 ∧ 2 < size ex_shared.2) ∧
    (operator_index_const ex_shared.1 ex_shared.2 2 = Except.ok 51 ∧
      (⟨2⟩ : char_proxy).value ex_shared.1 ex_shared.2 = Except.ok 51 ∧
      mIsShared ex_shared.1 ex_shared.2 = true) ∧
    ∃ v, (content ex_shared.1 ex_shared.2)[2]? = some v ∧
      operator_index_const ex_shared.1 ex_shared.2 2 = Except.ok v ∧
      operator_index ex_shared.2 2 = Except.ok ⟨2⟩ ∧
      (⟨2⟩ : char_proxy).value ex_shared.1 ex_shared.2 = Except.ok v ∧
      index_read_const ex_shared.1 ex_shared.2 2 = Except.ok (ex_shared.1, ex_shared.2, v) ∧
      index_read ex_shared.1 ex_shared.2 2 = Except.ok (ex_shared.1, ex_shared.2, v) ∧
      (∀ h1 s1 w, (index_read_const ex_shared.1 ex_shared.2 2 = Except.ok (h1, s1, w) ∨
          index_read ex_shared.1 ex_shared.2 2 = Except.ok (h1, s1, w)) →
        w = v ∧ size s1 = size ex_shared.2 ∧ capacity s1 = capacity ex_shared.2 ∧
        s1.mBuf = ex_shared.2.mBuf ∧
        content h1 s1 = content ex_shared.1 ex_shared.2 ∧
        mIsShared h1 s1 = mIsShared ex_shared.1 ex_shared.2 ∧
        ∀ t, content h1 t = content ex_shared.1 t ∧
          mIsShared h1 t = mIsShared ex_shared.1 t) :=
  ⟨⟨by decide, by decide⟩, ⟨rfl, rfl, by decide⟩,
    read_never_privatizes ex_shared.1 ex_shared.2 2 (by decide) (by decide)⟩

set_option maxRecDepth 100000 in
/-- C18 at 129 single-element appends on a default-constructed instance: after 128
appends the instance is unshared with size 128 and capacity 248; in the 129th append the
length local is `(char)128 = -128`, the size handed to `mSetSize` is
`size_type(-128 + 1)`, far above the capacity, and the element store before it is
outside the buffer. -/
theorem append_129_size_above_capacity :
    sizeAfter (ex_append_each (List.replicate 128 65)) = some 128 ∧
    capacityAfter (ex_append_each (List.replicate 128 65)) = some 248 ∧
    sharedAfter (ex_append_each (List.replicate 128 65)) = some false ∧
    toChar 128 = -128 ∧
    toSize (toChar 128 + 1) = 18446744073709551489 ∧
    248 < toSize (toChar 128 + 1) ∧
    errorOf (ex_append_each (List.replicate 129 65)) = some Err.undefined_behaviour := by
  decide

set_option maxRecDepth 100000 in
/-- C19 at 129 single-element appends on a default-constructed instance: after 128
appends the terminator is at index 128 of the 249 slots and `c_str()` shows the 128
elements; in the 129th append the terminator would be stored at index
`size_type(-128 + 1)`, outside the 249 slots, after an element store outside the buffer,
which leaves the old terminator at index 128 while `size()` is set to another value. -/
theorem append_129_terminator_outside :
    terminatedAfter (ex_append_each (List.replicate 128 65)) = some true ∧
    c_strAfter (ex_append_each (List.replicate 128 65)) = some (List.replicate 128 65) ∧
    slotsAfter (ex_append_each (List.replicate 128 65)) = some 249 ∧
    249 ≤ toSize (toChar 128 + 1) ∧
    toSize (toChar 128 + 1) ≠ 128 ∧
    errorOf (ex_append_each (List.replicate 129 65)) = some Err.undefined_behaviour := by
  decide

theorem take_succ_set {d : List Int} {n : Nat} (c : Int) (hn : n < d.length) :
    (d.set n c).take (n + 1) = d.take n ++ [c] := by
  apply List.ext_getElem?
  intro i
  rw [List.getElem?_take]
  by_cases hi : i < n
  · rw [if_pos (by omega), List.getElem?_set_ne (by omega),
      List.getElem?_append_left (by simp; omega), List.getElem?_take, if_pos hi]
  · by_cases hi2 : i = n
    · subst hi2
      rw [if_pos (by omega), List.getElem?_set_self (by omega),
        List.getElem?_append_right (by simp)]
      have hmin : (List.take i d).length = i := by
        rw [List.length_take]; omega
      rw [hmin, Nat.sub_self]
      rfl
    · rw [if_neg (by omega), List.getElem?_eq_none (by simp; omega)]

theorem toSize_succ_small (n : Nat) (hn : n < 128) : toSize ((n : Int) + 1) = n + 1 := by
  have := toSize_natCast (n + 1) (by omega)
  simpa using this

/-- A single-element append that reallocates (the instance is full or shared), at a size
below 128 and with the growth target within the limit: it completes on a fresh unshared
buffer of the reallocated capacity with the element appended. -/
theorem mAppend_chr_realloc_ok {h : Heap} {s : basic_lazy_string} (chr : Int)
    (hv : Valid h s) (hc : size s = capacity s ∨ mIsShared h s = true) (hsz : size s < 128)
    (hg : growTarget (capacity s) (capacity s + 1) ≤ mMaxCapacity) :
    ∃ h3, mAppend_chr h s chr = Except.ok
        (h3, ⟨h.next, newCapacity s (capacity s + 1), size s + 1⟩) ∧
      Valid h3 ⟨h.next, newCapacity s (capacity s + 1), size s + 1⟩ ∧
      mIsShared h3 ⟨h.next, newCapacity s (capacity s + 1), size s + 1⟩ = false ∧
      content h3 ⟨h.next, newCapacity s (capacity s + 1), size s + 1⟩
        = content h s ++ [chr] := by
  simp only [size, capacity] at hsz hg hc ⊢
  have hmax := mMaxCapacity_eq
  have hcm := hv.2.2.2.2.1
  have hss := hv.2.2.2.1
  have hmod : (s.mCapacity + 1) % 2 ^ 64 = s.mCapacity + 1 := Nat.mod_eq_of_lt (by omega)
  obtain ⟨h1, d, e1, r, hl, ht, _⟩ := mReallocate_ok h s (s.mCapacity + 1) hv hg
  have hnc := request_le_newCapacity s (s.mCapacity + 1)
  obtain ⟨h2, e2, u2⟩ := write_owned r.2.2.1 s.mSize chr (by omega)
  have r2 := realloc_upd r hv.1 u2
  obtain ⟨h3, e3, u3⟩ := mSetSize_owned
    (s := ⟨h.next, newCapacity s (s.mCapacity + 1), s.mSize⟩) (h := h2)
    r2.2.2.1 (s.mSize + 1) (by simp; omega)
  have r3 := realloc_upd r2 hv.1 u3
  have hlen : toChar (s.mSize : Int) = (s.mSize : Int) := toChar_small _ hsz
  have hts := toSize_succ_small s.mSize hsz
  have hcond : (toSize (s.mSize : Int) = s.mCapacity ∨ mIsShared h s = true) := by
    rw [toSize_natCast _ (by omega)]
    exact hc
  have hb : h3.buf h.next = (d.set s.mSize chr).set (s.mSize + 1) 0 := upd_buf_same u3
  refine ⟨h3, ?_, ⟨?_, ?_, ?_, ?_, newCapacity_le_max hv hg, Or.inr (min_le_allocCap _)⟩,
    ?_, ?_⟩
  · unfold mAppend_chr
    simp only [size, capacity, hlen, hcond, if_true, hmod, e1, e2, hts]
    exact e3
  · simp only [r3.2.1]; omega
  · simp only [r3.2.2.1]; omega
  · simp only [hb, List.length_set, hl]
  · simp only; omega
  · simp [mIsShared, r3.2.2.1]
  · rw [← ht]
    simp only [content, mGetBuf, hb]
    rw [take_set_of_le _ _ _ _ (Nat.le_refl _)]
    exact take_succ_set chr (by omega)

/-- A single-element append in place (the instance is unshared and not full), at a size
below 128: it completes on the same buffer with the element appended. -/
theorem mAppend_chr_inplace_ok {h : Heap} {s : basic_lazy_string} (chr : Int)
    (hv : Valid h s) (hu : mIsShared h s = false) (hlt : size s < capacity s)
    (hsz : size s < 128) :
    ∃ h2, mAppend_chr h s chr = Except.ok (h2, ⟨s.mBuf, s.mCapacity, size s + 1⟩) ∧
      Valid h2 ⟨s.mBuf, s.mCapacity, size s + 1⟩ ∧
      mIsShared h2 ⟨s.mBuf, s.mCapacity, size s + 1⟩ = false ∧
      content h2 ⟨s.mBuf, s.mCapacity, size s + 1⟩ = content h s ++ [chr] := by
  simp only [size, capacity] at hsz hlt ⊢
  obtain ⟨hb, hcnt, hlen, hss, hmax, hmin⟩ := hv
  obtain ⟨h1, e1, hb1, hx1, hc1, hl1⟩ := write_spec h s.mBuf s.mSize chr (by omega)
  obtain ⟨h2, e2, hb2, hx2, hc2, hl2⟩ := mSetSize_spec h1 s (s.mSize + 1)
    (by rw [hl1, hlen]; omega)
  have hch : toChar (s.mSize : Int) = (s.mSize : Int) := toChar_small _ hsz
  have hts := toSize_succ_small s.mSize hsz
  have hcond : ¬ (toSize (s.mSize : Int) = s.mCapacity ∨ mIsShared h s = true) := by
    rw [toSize_natCast _ (by omega), hu]
    simp
    omega
  refine ⟨h2, ?_, ⟨?_, ?_, ?_, ?_, hmax, hmin⟩, ?_, ?_⟩
  · unfold mAppend_chr
    simp only [size, capacity, hch, hcond, if_false, e1, hts]
    exact e2
  · simp only [hx2, hx1]; exact hb
  · simp only [hc2, hc1]; exact hcnt
  · simp only [hl2, hl1]; exact hlen
  · simp only; omega
  · simp only [mIsShared, hc2, hc1] at hu ⊢
    exact hu
  · simp only [content, mGetBuf, hb2, hb1]
    rw [take_set_of_le _ _ _ _ (Nat.le_refl _)]
    exact take_succ_set chr (by omega)

theorem append_each_unfold (h : Heap) (s : basic_lazy_string) (c : Int) (cs : List Int) :
    append_each h s (c :: cs) =
      match operator_pluseq_chr h s c with
      | Except.error e => Except.error e
      | Except.ok (h1, s1) => append_each h1 s1 cs := rfl

theorem append_each_cons (h : Heap) (s : basic_lazy_string) (c : Int) (cs : List Int)
    (h1 : Heap) (s1 : basic_lazy_string)
    (e : operator_pluseq_chr h s c = Except.ok (h1, s1)) :
    append_each h s (c :: cs) = append_each h1 s1 cs := by
  rw [append_each_unfold, e]

/-- Single-element appends in place, while the size stays within the capacity and does
not pass 128: they complete on the same buffer with the elements appended in order. -/
theorem append_each_inplace (cs : List Int) (h : Heap) (s : basic_lazy_string)
    (hv : Valid h s) (hu : mIsShared h s = false)
    (hcap : size s + cs.length ≤ capacity s) (hsz : size s + cs.length ≤ 128) :
    ∃ h1, append_each h s cs = Except.ok (h1, ⟨s.mBuf, s.mCapacity, size s + cs.length⟩) ∧
      Valid h1 ⟨s.mBuf, s.mCapacity, size s + cs.length⟩ ∧
      mIsShared h1 ⟨s.mBuf, s.mCapacity, size s + cs.length⟩ = false ∧
      content h1 ⟨s.mBuf, s.mCapacity, size s + cs.length⟩ = content h s ++ cs := by
  induction cs generalizing h s with
  | nil =>
    cases s with
    | mk b c n => exact ⟨h, rfl, hv, hu, by simp [content, size, mGetBuf]⟩
  | cons c cs ih =>
    simp only [List.length_cons] at hcap hsz
    obtain ⟨h2, e2, v2, u2, c2⟩ := mAppend_chr_inplace_ok c hv hu (by omega) (by omega)
    obtain ⟨h3, e3, v3, u3, c3⟩ := ih h2 ⟨s.mBuf, s.mCapacity, size s + 1⟩ v2 u2
      (by simp only [size, capacity] at hcap ⊢; omega)
      (by simp only [size] at hsz ⊢; omega)
    have hsize : s.mSize + 1 + cs.length = s.mSize + (cs.length + 1) := by omega
    simp only [size] at e2 c2 e3 v3 u3 c3 ⊢
    rw [hsize] at e3 v3 u3 c3
    refine ⟨h3, ?_, v3, u3, ?_⟩
    · rw [append_each_cons h s c cs h2 ⟨s.mBuf, s.mCapacity, s.mSize + 1⟩ e2]
      exact e3
    · simp only [List.length_cons]
      rw [c3, c2, List.append_assoc]
      rfl

theorem growTarget_eq (c r : Nat) (hc : c ≤ mMaxCapacity) :
    growTarget c r = if c < r ∧ r < 2 * c then 2 * c else r := by
  have hm := mMaxCapacity_eq
  have hmod : (2 * c) % 2 ^ 64 = 2 * c := Nat.mod_eq_of_lt (by omega)
  unfold growTarget
  rw [hmod]

theorem newCapacity_eq_max (s : basic_lazy_string) (r : Nat) :
    newCapacity s r = max (max (growTarget s.mCapacity r) s.mCapacity) mMinCapacity := by
  unfold newCapacity allocCap
  split <;> split <;> omega

/-- The capacity after a single-element append on a full instance of capacity between
the floor and 64. -/
theorem newCapacity_full (s : basic_lazy_string) (h31 : mMinCapacity ≤ s.mCapacity)
    (h64 : s.mCapacity ≤ 64) : newCapacity s (s.mCapacity + 1) = 2 * s.mCapacity := by
  have hm := mMaxCapacity_eq
  have hfloor : mMinCapacity = 31 := by decide
  rw [newCapacity_eq_max, growTarget_eq _ _ (by omega), hfloor]
  rw [hfloor] at h31
  rw [if_pos (by omega)]
  omega

/-- Growth policy where the code keeps it: for a valid instance with capacity `c` and
size `n` and a request
`r` whose target `t` (`2 * c` when `c < r < 2 * c`, `r` otherwise) does not exceed the
limit, `mReallocate(r)` completes with capacity `max(t, c, floor)`, not below `r`, and
keeps the size and the `n` live elements; appending one element to an unshared, full
string with `floor <= size == capacity == c <= 64` gives capacity exactly `2 * c`, and
the following single-element appends, up to `c - 1` of them, complete in place without
changing the capacity. -/
theorem growth_policy_up_to_64 (h : Heap) (s : basic_lazy_string) (r : Nat)
    (hv : Valid h s) (ht : growTarget (capacity s) r ≤ mMaxCapacity) :
    (growTarget (capacity s) r
        = (if capacity s < r ∧ r < 2 * capacity s then 2 * capacity s else r) ∧
      ∃ h1 s1, mReallocate h s r = Except.ok (h1, s1) ∧ Valid h1 s1 ∧
        capacity s1 = max (max (growTarget (capacity s) r) (capacity s)) mMinCapacity ∧
        r ≤ capacity s1 ∧ size s1 = size s ∧ content h1 s1 = content h s) ∧
    (mIsShared h s = false → size s = capacity s → mMinCapacity ≤ capacity s →
      capacity s ≤ 64 →
      ∀ chr, ∃ h1 s1, operator_pluseq_chr h s chr = Except.ok (h1, s1) ∧
        capacity s1 = 2 * capacity s ∧ size s1 = capacity s + 1 ∧
        ∀ cs : List Int, cs.length ≤ capacity s - 1 →
          ∃ h2 s2, append_each h1 s1 cs = Except.ok (h2, s2) ∧
            capacity s2 = 2 * capacity s ∧ s2.mBuf = s1.mBuf ∧
            size s2 = capacity s + 1 + cs.length ∧
            content h2 s2 = content h s ++ chr :: cs) := by
  simp only [capacity, size] at ht ⊢
  have hm := mMaxCapacity_eq
  have hfloor : mMinCapacity = 31 := by decide
  refine ⟨⟨growTarget_eq _ _ hv.2.2.2.2.1, ?_⟩, ?_⟩
  · obtain ⟨h1, d, e, rl, hl, htk, _⟩ := mReallocate_ok h s r hv ht
    obtain ⟨v, _, hcont⟩ := mReallocate_valid hv ht rl hl htk
    exact ⟨h1, _, e, v, newCapacity_eq_max s r, request_le_newCapacity s r, rfl, hcont⟩
  · intro hu hfull h31 h64 chr
    have hnc := newCapacity_full s h31 h64
    rw [hfloor] at h31
    have hg : growTarget (capacity s) (capacity s + 1) ≤ mMaxCapacity := by
      simp only [capacity]
      rw [growTarget_eq _ _ hv.2.2.2.2.1]
      split <;> omega
    obtain ⟨h3, e3, v3, u3, c3⟩ := mAppend_chr_realloc_ok chr hv (Or.inl hfull)
      (by simp only [size, capacity] at hfull ⊢; omega) hg
    simp only [size, capacity] at e3 v3 u3 c3 hfull
    rw [hnc, hfull] at e3 v3 u3 c3
    refine ⟨h3, ⟨h.next, 2 * s.mCapacity, s.mCapacity + 1⟩, e3, rfl, rfl, ?_⟩
    intro cs hcs
    obtain ⟨h4, e4, _, _, c4⟩ := append_each_inplace cs h3
      ⟨h.next, 2 * s.mCapacity, s.mCapacity + 1⟩ v3 u3
      (by simp only [size, capacity]; omega) (by simp only [size]; omega)
    refine ⟨h4, _, e4, rfl, rfl, rfl, ?_⟩
    rw [c4, c3, List.append_assoc]
    rfl

set_option maxRecDepth 100000 in
/-- Growth policy at `lazy_string s('a', 31)` (full, capacity 31) and the request 40:
`mReallocate(40)` gives capacity 62; `s += 'b'` gives capacity 62 and 30 more appends
keep it. -/
theorem growth_policy_up_to_64_witness :
    (Valid ex_full.1 ex_full.2 ∧ growTarget (capacity ex_full.2) 40 ≤ mMaxCapacity) ∧
    (capacityAfter (mReallocate ex_full.1 ex_full.2 40) = some 62 ∧
      capacityAfter (ex_fill_append 31 1) = some 62 ∧
      capacityAfter (ex_fill_append 31 31) = some 62 ∧
      sizeAfter (ex_fill_append 31 31) = some 62 ∧
      capacityAfter (ex_fill_append 31 32) = some 124) ∧
    ((growTarget (capacity ex_full.2) 40
        = (if capacity ex_full.2 < 40 ∧ 40 < 2 * capacity ex_full.2
            then 2 * capacity ex_full.2 else 40) ∧
      ∃ h1 s1, mReallocate ex_full.1 ex_full.2 40 = Except.ok (h1, s1) ∧ Valid h1 s1 ∧
        capacity s1
          = max (max (growTarget (capacity ex_full.2) 40) (capacity ex_full.2)) mMinCapacity ∧
        40 ≤ capacity s1 ∧ size s1 = size ex_full.2 ∧
        content h1 s1 = content ex_full.1 ex_full.2) ∧
    (mIsShared ex_full.1 ex_full.2 = false → size ex_full.2 = capacity ex_full.2 →
      mMinCapacity ≤ capacity ex_full.2 → capacity ex_full.2 ≤ 64 →
      ∀ chr, ∃ h1 s1, operator_pluseq_chr ex_full.1 ex_full.2 chr = Except.ok (h1, s1) ∧
        capacity s1 = 2 * capacity ex_full.2 ∧ size s1 = capacity ex_full.2 + 1 ∧
        ∀ cs : List Int, cs.length ≤ capacity ex_full.2 - 1 →
          ∃ h2 s2, append_each h1 s1 cs = Except.ok (h2, s2) ∧
            capacity s2 = 2 * capacity ex_full.2 ∧ s2.mBuf = s1.mBuf ∧
            size s2 = capacity ex_full.2 + 1 + cs.length ∧
            content h2 s2 = content ex_full.1 ex_full.2 ++ chr :: cs)) :=
  ⟨⟨by decide, by decide⟩, by decide,
    growth_policy_up_to_64 ex_full.1 ex_full.2 40 (by decide) (by decide)⟩

/-- The two outcomes of `reserve` on a valid instance: the size-limit error when a
reallocation is due and the growth target is above the limit, a result otherwise. -/
theorem reserve_cases (h : Heap) (s : basic_lazy_string) (n : Nat) (hv : Valid h s) :
    (reserve h s n = Except.error Err.size_limit_exceeded ∧
      (n > capacity s ∨ (mIsShared h s = true ∧ n ≠ 0)) ∧
      mMaxCapacity < growTarget (capacity s) n) ∨
    (∃ p, reserve h s n = Except.ok p ∧
      ¬ ((n > capacity s ∨ (mIsShared h s = true ∧ n ≠ 0)) ∧
        mMaxCapacity < growTarget (capacity s) n)) := by
  by_cases hc : (n > capacity s ∨ (mIsShared h s = true ∧ n ≠ 0))
  · by_cases hg : growTarget s.mCapacity n ≤ mMaxCapacity
    · right
      obtain ⟨h1, d, e, _⟩ := mReallocate_ok h s n hv hg
      refine ⟨(h1, ⟨h.next, newCapacity s n, s.mSize⟩), ?_, ?_⟩
      · unfold reserve
        rw [if_pos hc]
        exact e
      · rintro ⟨_, hlt⟩
        simp only [capacity] at hlt
        omega
    · left
      refine ⟨?_, hc, ?_⟩
      · unfold reserve
        rw [if_pos hc]
        exact mReallocate_err h s n hv.2.2.2.2.1 hg
      · simp only [capacity]
        omega
  · right
    refine ⟨(h, s), ?_, fun hh => hc hh.1⟩
    unfold reserve
    rw [if_neg hc]

/-- Failure of `reserve` in terms of the growth target, on every valid instance of the
model: for a valid instance `s` and every `n`, `s.reserve(n)` fails exactly
when a reallocation is due (`n > capacity`, or the buffer is shared and `n != 0`) and the
growth target (`2 * capacity` when `capacity < n < 2 * capacity`, `n` otherwise) exceeds
the maximum capacity, and then with the size-limit error; in particular it fails whenever
`n` exceeds the maximum capacity. The failure is the guard of the private constructor,
met on the starting heap before any allocation or store: the heap after a failing call
is the starting heap, and `s` is still valid in it with its content (its size and
capacity are members of `s`, which a call that throws does not assign). -/
theorem reserve_fails_iff_target (h : Heap) (s : basic_lazy_string) (n : Nat)
    (hv : Valid h s) :
    (errorOf (reserve h s n) = some Err.size_limit_exceeded ↔
      (n > capacity s ∨ (mIsShared h s = true ∧ n ≠ 0)) ∧
        mMaxCapacity < growTarget (capacity s) n) ∧
    (∀ e, errorOf (reserve h s n) = some e → e = Err.size_limit_exceeded) ∧
    (mMaxCapacity < n → errorOf (reserve h s n) = some Err.size_limit_exceeded) ∧
    (growTarget (capacity s) n
      = if capacity s < n ∧ n < 2 * capacity s then 2 * capacity s else n) ∧
    (∀ e, reserve h s n = Except.error e →
      ctor_capacity h (growTarget (capacity s) n) = Except.error Err.size_limit_exceeded ∧
      heapAfter h (reserve h s n) = h ∧
      Valid (heapAfter h (reserve h s n)) s ∧
      content (heapAfter h (reserve h s n)) s = content h s) := by
  have hcases := reserve_cases h s n hv
  have hcm := hv.2.2.2.2.1
  refine ⟨?_, ?_, ?_, growTarget_eq _ _ hcm, ?_⟩
  · rcases hcases with ⟨e, hc, hg⟩ | ⟨p, e, hn⟩
    · rw [e]
      exact ⟨fun _ => ⟨hc, hg⟩, fun _ => rfl⟩
    · rw [e]
      constructor
      · intro hh; simp [errorOf] at hh
      · intro hh; exact absurd hh hn
  · intro e he
    rcases hcases with ⟨e1, _, _⟩ | ⟨p, e1, _⟩
    · rw [e1] at he
      simp only [errorOf, Option.some.injEq] at he
      exact he.symm
    · rw [e1] at he
      simp [errorOf] at he
  · intro hn
    have hgt := request_le_growTarget (capacity s) n
    rcases hcases with ⟨e1, _, _⟩ | ⟨p, _, hneg⟩
    · rw [e1]; rfl
    · exfalso
      apply hneg
      refine ⟨Or.inl ?_, by omega⟩
      simp only [capacity]
      omega
  · intro e he
    rcases hcases with ⟨e1, _, hg⟩ | ⟨p, e1, _⟩
    · refine ⟨?_, ?_, ?_, ?_⟩
      · unfold ctor_capacity
        rw [if_pos hg]
      · rw [e1]; rfl
      · rw [e1]; exact hv
      · rw [e1]; rfl
    · rw [e1] at he
      simp at he

/-- Values of `tolower`: letters, a high-bit element, `EOF`; and the comparison of
`"foo"` with `"\xc8oo"` under the case-insensitive policy, which is negative (`'f'` is
102, the high-bit element lower-cases to 200), while the two stored contents are kept. -/
theorem ci_compare_high_bit :
    tolower 70 = 102 ∧ tolower 102 = 102 ∧ tolower (-56) = 200 ∧ tolower (-128) = 128 ∧
    tolower (-2) = 254 ∧ tolower (-1) = -1 ∧ tolower 0 = 0 ∧
    content ex_ci_high.1 ex_ci_high.2.1 = [102, 111, 111] ∧
    content ex_ci_high.1 ex_ci_high.2.2 = [-56, 111, 111] ∧
    compare ci_char_traits_compare ex_ci_high.1 ex_ci_high.2.1 ex_ci_high.2.2 = -1 ∧
    compare ci_char_traits_compare ex_ci_high.1 ex_ci_high.2.2 ex_ci_high.2.1 = 1 ∧
    operator_lt ci_char_traits_compare ex_ci_high.1 ex_ci_high.2.1 ex_ci_high.2.2 = true ∧
    operator_eq ci_char_traits_compare ex_ci_high.1 ex_ci_high.2.1 ex_ci_high.2.2 = false := by
  decide

set_option maxRecDepth 100000 in
/-- C2 at `lazy_string s('a', 128); lazy_string t = s;`: the instance is valid, shared,
of size and capacity 128. Then `s += 'x'` takes a private copy and stores the element at
index `-128` of it, outside the array (`value_type len = size()` is `-128`): undefined
behaviour, no append that leaves `t` as it was. `s += t` and `s += x` for raw content of
128 elements compute the new size `0` in a `value_type`, keep capacity 128 in the private
copy and copy 128 elements from index 128 on, past the end of the array; `s += "ab"`
computes the new size `-126`, which as a `size_type` exceeds the maximum capacity, and
throws the size-limit error. -/
theorem append_on_shared_128_fails :
    Valid ex_shared_128.1 ex_shared_128.2 ∧
    mIsShared ex_shared_128.1 ex_shared_128.2 = true ∧
    size ex_shared_128.2 = 128 ∧ capacity ex_shared_128.2 = 128 ∧
    errorOf (operator_pluseq_chr ex_shared_128.1 ex_shared_128.2 120)
      = some Err.undefined_behaviour ∧
    errorOf (operator_pluseq ex_shared_128.1 ex_shared_128.2 ex_shared_128.2)
      = some Err.undefined_behaviour ∧
    errorOf (operator_pluseq_ptr ex_shared_128.1 ex_shared_128.2 (List.replicate 128 98 ++ [0]))
      = some Err.undefined_behaviour ∧
    errorOf (operator_pluseq_ptr ex_shared_128.1 ex_shared_128.2 [97, 98, 0])
      = some Err.size_limit_exceeded := by
  decide

set_option maxRecDepth 100000 in
/-- C20 at `lazy_string s('a', 128);`, an unshared full instance of size and capacity
128: `s += 'b'` does not reallocate to capacity 256; `value_type len = size()` is `-128`,
the test `len == capacity()` fails and the element is stored at index `-128`, outside
the array. At `lazy_string s('a', 65);` the first append gives capacity 130 and the
following 62 appends keep it, up to size 128; the next one is the same store outside
the array, where 64 appends were to follow in place. -/
theorem append_on_full_128_fails :
    (sizeAfter (ex_fill_append 128 0) = some 128 ∧
      capacityAfter (ex_fill_append 128 0) = some 128 ∧
      sharedAfter (ex_fill_append 128 0) = some false ∧
      errorOf (ex_fill_append 128 1) = some Err.undefined_behaviour) ∧
    (sizeAfter (ex_fill_append 65 0) = some 65 ∧
      capacityAfter (ex_fill_append 65 0) = some 65 ∧
      sharedAfter (ex_fill_append 65 0) = some false ∧
      sizeAfter (ex_fill_append 65 1) = some 66 ∧
      capacityAfter (ex_fill_append 65 1) = some 130 ∧
      sizeAfter (ex_fill_append 65 63) = some 128 ∧
      capacityAfter (ex_fill_append 65 63) = some 130 ∧
      errorOf (ex_fill_append 65 64) = some Err.undefined_behaviour ∧
      errorOf (ex_fill_append 65 65) = some Err.undefined_behaviour) := by
  decide

end std_utils
